import Mathlib

/-!
Verification of the Robust (Toeplitz) Kronecker-product PCA covariance
estimator (`cca/kron_pca.py`): the Pitsianis-Van Loan layout transform,
the proximal operators, the Toeplitz projector `build_P`, the two
proximal-gradient solvers, and the cross-validation / grid-search drivers.

Matrices are embedded as functions `ℕ → ℕ → ℝ` (row, column) together with
explicit dimensions where an operation depends on them; machine floats are
idealized as exact reals, and the index bookkeeping is exact naturals.
-/

/-- Flat-index permutation computed by `pv_permutation(ps, pt)` (the `perm`
array).  `perm[m]` for `m = (i*pt+j)*ps² + (a*ps+b)` is the flat index of
entry `(i*ps+b, j*ps+a)` of the original `(ps·pt)×(ps·pt)` matrix: row
`i*pt+j` of the rearranged matrix holds `vec(A_ij) = A_ij.T.ravel()`, the
column-major vectorization of the `(i,j)` block, exactly as the source
builds `I_perm[row_idx, :] = I_block.T.reshape((ps**2,))`. -/
def pv_perm (ps pt m : ℕ) : ℕ :=
  let colidx := m % (ps * ps)
  let rowidx := m / (ps * ps)
  let i := rowidx / pt
  let j := rowidx % pt
  let a := colidx / ps
  let b := colidx % ps
  (i * ps + b) * (ps * pt) + (j * ps + a)

/-- Explicit closed form for the inverse permutation (used to reason about
`perm.argsort()`): decompose an original flat index into its row
`i*ps + b` and column `j*ps + a` and send it to rearranged flat index
`(i*pt+j)*ps² + (a*ps+b)`. -/
def pv_perm_pre (ps pt m : ℕ) : ℕ :=
  let c := m % (ps * pt)
  let r := m / (ps * pt)
  let i := r / ps
  let b := r % ps
  let j := c / ps
  let a := c % ps
  (i * pt + j) * (ps * ps) + (a * ps + b)

/-- Embedding of `perm_inv = perm.argsort()`: for an integer array holding a
permutation of `0 … N−1`, `argsort` places at slot `m` the position at which
the value `m` occurs, i.e. the first (unique) index `k` with `perm[k] = m`. -/
def pv_perm_inv (ps pt m : ℕ) : ℕ :=
  (List.range (ps ^ 2 * pt ^ 2)).findIdx (fun k => pv_perm ps pt k == m)

/-- Embedding of `pv_rearrange(C, ps, pt)`:
`C_prime = C.ravel()[perm].reshape((pt**2, ps**2))`, so entry `(r, c)` of the
rearranged matrix is the entry of `C` at flat index `perm[r*ps² + c]`.
The transform is a pure index permutation, hence type-generic. -/
def pv_rearrange {α : Type} (C : ℕ → ℕ → α) (ps pt : ℕ) : ℕ → ℕ → α :=
  fun r c =>
    let m := pv_perm ps pt (r * (ps * ps) + c)
    C (m / (ps * pt)) (m % (ps * pt))

/-- Embedding of `pv_rearrange_inv(C, ps, pt)`:
`C_prime = C.ravel()[perm_inv].reshape((ps*pt, ps*pt))`, so entry `(i, j)` of
the recovered matrix is the entry of the rearranged matrix at flat index
`perm_inv[i*(ps·pt) + j]`. -/
def pv_rearrange_inv {α : Type} (D : ℕ → ℕ → α) (ps pt : ℕ) : ℕ → ℕ → α :=
  fun i j =>
    let m := pv_perm_inv ps pt (i * (ps * pt) + j)
    D (m / (ps * ps)) (m % (ps * ps))

lemma nat_mul_add_div_mod {n q r : ℕ} (h : r < n) :
    (n * q + r) / n = q ∧ (n * q + r) % n = r := by
  have hn : 0 < n := lt_of_le_of_lt (Nat.zero_le r) h
  constructor
  · rw [Nat.mul_add_div hn, Nat.div_eq_of_lt h, Nat.add_zero]
  · rw [Nat.mul_add_mod, Nat.mod_eq_of_lt h]

lemma lt_mul_of_parts {x y n : ℕ} (hx : x < n) (hy : y < n) : x * n + y < n * n := by
  calc x * n + y < x * n + n := by omega
  _ = (x + 1) * n := by ring
  _ ≤ n * n := Nat.mul_le_mul_right n hx

lemma pv_perm_formula {ps pt : ℕ} (i j a b : ℕ)
    (hi : i < pt) (hj : j < pt) (ha : a < ps) (hb : b < ps) :
    pv_perm ps pt ((i * pt + j) * (ps * ps) + (a * ps + b)) =
      (i * ps + b) * (ps * pt) + (j * ps + a) := by
  have hps : 0 < ps := lt_of_le_of_lt (Nat.zero_le a) ha
  have hpt : 0 < pt := lt_of_le_of_lt (Nat.zero_le i) hi
  have hab : a * ps + b < ps * ps := by
    calc a * ps + b < a * ps + ps := by omega
    _ = (a + 1) * ps := by ring
    _ ≤ ps * ps := Nat.mul_le_mul_right ps ha
  have h1 : ((i * pt + j) * (ps * ps) + (a * ps + b)) / (ps * ps) = i * pt + j := by
    rw [mul_comm (i * pt + j) (ps * ps)]
    exact (nat_mul_add_div_mod hab).1
  have h2 : ((i * pt + j) * (ps * ps) + (a * ps + b)) % (ps * ps) = a * ps + b := by
    rw [mul_comm (i * pt + j) (ps * ps)]
    exact (nat_mul_add_div_mod hab).2
  have h3 : (i * pt + j) / pt = i := by
    rw [mul_comm i pt]; exact (nat_mul_add_div_mod hj).1
  have h4 : (i * pt + j) % pt = j := by
    rw [mul_comm i pt]; exact (nat_mul_add_div_mod hj).2
  have h5 : (a * ps + b) / ps = a := by
    rw [mul_comm a ps]; exact (nat_mul_add_div_mod hb).1
  have h6 : (a * ps + b) % ps = b := by
    rw [mul_comm a ps]; exact (nat_mul_add_div_mod hb).2
  simp only [pv_perm, h1, h2, h3, h4, h5, h6]

lemma pv_perm_pre_formula {ps pt : ℕ} (i j a b : ℕ)
    (hi : i < pt) (hj : j < pt) (ha : a < ps) (hb : b < ps) :
    pv_perm_pre ps pt ((i * ps + b) * (ps * pt) + (j * ps + a)) =
      (i * pt + j) * (ps * ps) + (a * ps + b) := by
  have hps : 0 < ps := lt_of_le_of_lt (Nat.zero_le a) ha
  have hpt : 0 < pt := lt_of_le_of_lt (Nat.zero_le i) hi
  have hja : j * ps + a < ps * pt := by
    calc j * ps + a < j * ps + ps := by omega
    _ = (j + 1) * ps := by ring
    _ ≤ pt * ps := Nat.mul_le_mul_right ps hj
    _ = ps * pt := mul_comm pt ps
  have h1 : ((i * ps + b) * (ps * pt) + (j * ps + a)) / (ps * pt) = i * ps + b := by
    rw [mul_comm (i * ps + b) (ps * pt)]
    exact (nat_mul_add_div_mod hja).1
  have h2 : ((i * ps + b) * (ps * pt) + (j * ps + a)) % (ps * pt) = j * ps + a := by
    rw [mul_comm (i * ps + b) (ps * pt)]
    exact (nat_mul_add_div_mod hja).2
  have h3 : (i * ps + b) / ps = i := by
    rw [mul_comm i ps]; exact (nat_mul_add_div_mod hb).1
  have h4 : (i * ps + b) % ps = b := by
    rw [mul_comm i ps]; exact (nat_mul_add_div_mod hb).2
  have h5 : (j * ps + a) / ps = j := by
    rw [mul_comm j ps]; exact (nat_mul_add_div_mod ha).1
  have h6 : (j * ps + a) % ps = a := by
    rw [mul_comm j ps]; exact (nat_mul_add_div_mod ha).2
  simp only [pv_perm_pre, h1, h2, h3, h4, h5, h6]

/-- Decomposition of a flat rearranged index `m < ps²·pt²` into block
coordinates `i, j < pt` and within-block coordinates `a, b < ps`. -/
lemma rearranged_index_decomp {ps pt m : ℕ} (h : m < ps * ps * (pt * pt)) :
    ∃ i j a b, i < pt ∧ j < pt ∧ a < ps ∧ b < ps ∧
      m = (i * pt + j) * (ps * ps) + (a * ps + b) := by
  have hps : 0 < ps := by
    rcases Nat.eq_zero_or_pos ps with h0 | h0
    · subst h0; simp at h
    · exact h0
  have hpt : 0 < pt := by
    rcases Nat.eq_zero_or_pos pt with h0 | h0
    · subst h0; simp at h
    · exact h0
  have hrow : m / (ps * ps) < pt * pt := by
    rw [Nat.div_lt_iff_lt_mul (Nat.mul_pos hps hps)]
    calc m < ps * ps * (pt * pt) := h
    _ = pt * pt * (ps * ps) := by ring
  have hcol : m % (ps * ps) < ps * ps := Nat.mod_lt _ (Nat.mul_pos hps hps)
  refine ⟨m / (ps * ps) / pt, m / (ps * ps) % pt, m % (ps * ps) / ps, m % (ps * ps) % ps,
    ?_, Nat.mod_lt _ hpt, ?_, Nat.mod_lt _ hps, ?_⟩
  · rw [Nat.div_lt_iff_lt_mul hpt]; exact hrow
  · rw [Nat.div_lt_iff_lt_mul hps]; exact hcol
  · have e1 : m / (ps * ps) / pt * pt + m / (ps * ps) % pt = m / (ps * ps) := by
      rw [mul_comm (m / (ps * ps) / pt) pt]; exact Nat.div_add_mod _ _
    have e2 : m % (ps * ps) / ps * ps + m % (ps * ps) % ps = m % (ps * ps) := by
      rw [mul_comm (m % (ps * ps) / ps) ps]; exact Nat.div_add_mod _ _
    rw [e1, e2, mul_comm (m / (ps * ps)) (ps * ps)]
    exact (Nat.div_add_mod m (ps * ps)).symm

/-- Decomposition of a flat original-matrix index `m < (ps·pt)²` into row
`i*ps + b` and column `j*ps + a` with `i, j < pt` and `a, b < ps`. -/
lemma original_index_decomp {ps pt m : ℕ} (h : m < ps * ps * (pt * pt)) :
    ∃ i j a b, i < pt ∧ j < pt ∧ a < ps ∧ b < ps ∧
      m = (i * ps + b) * (ps * pt) + (j * ps + a) := by
  have hps : 0 < ps := by
    rcases Nat.eq_zero_or_pos ps with h0 | h0
    · subst h0; simp at h
    · exact h0
  have hpt : 0 < pt := by
    rcases Nat.eq_zero_or_pos pt with h0 | h0
    · subst h0; simp at h
    · exact h0
  have hrow : m / (ps * pt) < ps * pt := by
    rw [Nat.div_lt_iff_lt_mul (Nat.mul_pos hps hpt)]
    calc m < ps * ps * (pt * pt) := h
    _ = ps * pt * (ps * pt) := by ring
  have hcol : m % (ps * pt) < ps * pt := Nat.mod_lt _ (Nat.mul_pos hps hpt)
  refine ⟨m / (ps * pt) / ps, m % (ps * pt) / ps, m % (ps * pt) % ps, m / (ps * pt) % ps,
    ?_, ?_, Nat.mod_lt _ hps, Nat.mod_lt _ hps, ?_⟩
  · rw [Nat.div_lt_iff_lt_mul hps]
    calc m / (ps * pt) < ps * pt := hrow
    _ = pt * ps := mul_comm ps pt
  · rw [Nat.div_lt_iff_lt_mul hps]
    calc m % (ps * pt) < ps * pt := hcol
    _ = pt * ps := mul_comm ps pt
  · have e1 : m / (ps * pt) / ps * ps + m / (ps * pt) % ps = m / (ps * pt) := by
      rw [mul_comm (m / (ps * pt) / ps) ps]; exact Nat.div_add_mod _ _
    have e2 : m % (ps * pt) / ps * ps + m % (ps * pt) % ps = m % (ps * pt) := by
      rw [mul_comm (m % (ps * pt) / ps) ps]; exact Nat.div_add_mod _ _
    rw [e1, e2, mul_comm (m / (ps * pt)) (ps * pt)]
    exact (Nat.div_add_mod m (ps * pt)).symm

/-- The permutation round-trips: `pv_perm_pre` undoes `pv_perm` below `ps²·pt²`. -/
lemma pv_perm_pre_perm {ps pt m : ℕ} (h : m < ps * ps * (pt * pt)) :
    pv_perm_pre ps pt (pv_perm ps pt m) = m := by
  obtain ⟨i, j, a, b, hi, hj, ha, hb, rfl⟩ := rearranged_index_decomp h
  rw [pv_perm_formula i j a b hi hj ha hb, pv_perm_pre_formula i j a b hi hj ha hb]

/-- The permutation round-trips: `pv_perm` undoes `pv_perm_pre` below `(ps·pt)²`. -/
lemma pv_perm_perm_pre {ps pt m : ℕ} (h : m < ps * ps * (pt * pt)) :
    pv_perm ps pt (pv_perm_pre ps pt m) = m := by
  obtain ⟨i, j, a, b, hi, hj, ha, hb, rfl⟩ := original_index_decomp h
  rw [pv_perm_pre_formula i j a b hi hj ha hb, pv_perm_formula i j a b hi hj ha hb]

lemma pv_perm_lt {ps pt m : ℕ} (h : m < ps * ps * (pt * pt)) :
    pv_perm ps pt m < ps * ps * (pt * pt) := by
  obtain ⟨i, j, a, b, hi, hj, ha, hb, rfl⟩ := rearranged_index_decomp h
  rw [pv_perm_formula i j a b hi hj ha hb]
  have h1 : i * ps + b < ps * pt := by
    calc i * ps + b < i * ps + ps := by omega
    _ = (i + 1) * ps := by ring
    _ ≤ pt * ps := Nat.mul_le_mul_right ps hi
    _ = ps * pt := mul_comm pt ps
  have h2 : j * ps + a < ps * pt := by
    calc j * ps + a < j * ps + ps := by omega
    _ = (j + 1) * ps := by ring
    _ ≤ pt * ps := Nat.mul_le_mul_right ps hj
    _ = ps * pt := mul_comm pt ps
  calc (i * ps + b) * (ps * pt) + (j * ps + a)
      < ps * pt * (ps * pt) := lt_mul_of_parts h1 h2
    _ = ps * ps * (pt * pt) := by ring

lemma pv_perm_pre_lt {ps pt m : ℕ} (h : m < ps * ps * (pt * pt)) :
    pv_perm_pre ps pt m < ps * ps * (pt * pt) := by
  obtain ⟨i, j, a, b, hi, hj, ha, hb, rfl⟩ := original_index_decomp h
  rw [pv_perm_pre_formula i j a b hi hj ha hb]
  have h1 : i * pt + j < pt * pt := lt_mul_of_parts hi hj
  have h2 : a * ps + b < ps * ps := lt_mul_of_parts ha hb
  calc (i * pt + j) * (ps * ps) + (a * ps + b)
      < (i * pt + j) * (ps * ps) + (ps * ps) := by omega
    _ = (i * pt + j + 1) * (ps * ps) := by ring
    _ ≤ (pt * pt) * (ps * ps) := Nat.mul_le_mul_right (ps * ps) h1
    _ = ps * ps * (pt * pt) := by ring

/-- `perm.argsort()` agrees with the closed-form inverse on valid indices. -/
lemma pv_perm_inv_eq_pre {ps pt m : ℕ} (h : m < ps * ps * (pt * pt)) :
    pv_perm_inv ps pt m = pv_perm_pre ps pt m := by
  have hN : ps ^ 2 * pt ^ 2 = ps * ps * (pt * pt) := by ring
  have hlen : (List.range (ps ^ 2 * pt ^ 2)).length = ps * ps * (pt * pt) := by
    rw [List.length_range, hN]
  have hpre : pv_perm_pre ps pt m < ps * ps * (pt * pt) := pv_perm_pre_lt h
  unfold pv_perm_inv
  rw [List.findIdx_eq (by rw [hlen]; exact hpre)]
  constructor
  · simp only [List.getElem_range, beq_iff_eq]
    exact pv_perm_perm_pre h
  · intro k hk
    simp only [List.getElem_range, beq_eq_false_iff_ne, ne_eq]
    intro hcontra
    have hkN : k < ps * ps * (pt * pt) := lt_trans hk hpre
    have : k = pv_perm_pre ps pt m := by
      rw [← hcontra, pv_perm_pre_perm hkN]
    omega

/-- C1: for all positive `ps`, `pt` and every matrix `C` of shape
`(ps·pt)×(ps·pt)` (over an arbitrary entry type, so the statement is an exact
index permutation with no numerical error), the inverse rearrangement undoes
the forward rearrangement entrywise on the whole shape. -/
theorem C1_pv_rearrange_round_trip {α : Type} (C : ℕ → ℕ → α) (ps pt : ℕ)
    (hps : 0 < ps) (hpt : 0 < pt) (i j : ℕ) (hi : i < ps * pt) (hj : j < ps * pt) :
    pv_rearrange_inv (pv_rearrange C ps pt) ps pt i j = C i j := by
  have hm0 : i * (ps * pt) + j < ps * ps * (pt * pt) := by
    calc i * (ps * pt) + j < (ps * pt) * (ps * pt) := lt_mul_of_parts hi hj
    _ = ps * ps * (pt * pt) := by ring
  have e0 : pv_rearrange_inv (pv_rearrange C ps pt) ps pt i j =
      pv_rearrange C ps pt (pv_perm_inv ps pt (i * (ps * pt) + j) / (ps * ps))
        (pv_perm_inv ps pt (i * (ps * pt) + j) % (ps * ps)) := rfl
  rw [e0, pv_perm_inv_eq_pre hm0]
  have hflat : pv_perm_pre ps pt (i * (ps * pt) + j) / (ps * ps) * (ps * ps) +
      pv_perm_pre ps pt (i * (ps * pt) + j) % (ps * ps) =
      pv_perm_pre ps pt (i * (ps * pt) + j) := by
    rw [mul_comm (pv_perm_pre ps pt (i * (ps * pt) + j) / (ps * ps)) (ps * ps)]
    exact Nat.div_add_mod _ _
  have e1 : pv_rearrange C ps pt (pv_perm_pre ps pt (i * (ps * pt) + j) / (ps * ps))
      (pv_perm_pre ps pt (i * (ps * pt) + j) % (ps * ps)) =
      C (pv_perm ps pt (pv_perm_pre ps pt (i * (ps * pt) + j) / (ps * ps) * (ps * ps) +
          pv_perm_pre ps pt (i * (ps * pt) + j) % (ps * ps)) / (ps * pt))
        (pv_perm ps pt (pv_perm_pre ps pt (i * (ps * pt) + j) / (ps * ps) * (ps * ps) +
          pv_perm_pre ps pt (i * (ps * pt) + j) % (ps * ps)) % (ps * pt)) := rfl
  rw [e1, hflat, pv_perm_perm_pre hm0]
  have h1 : (i * (ps * pt) + j) / (ps * pt) = i := by
    rw [mul_comm i (ps * pt)]; exact (nat_mul_add_div_mod hj).1
  have h2 : (i * (ps * pt) + j) % (ps * pt) = j := by
    rw [mul_comm i (ps * pt)]; exact (nat_mul_add_div_mod hj).2
  rw [h1, h2]

/-- Witness for C1 at `ps = 2`, `pt = 2`, a concrete real matrix, entry (3, 2). -/
theorem C1_witness :
    pv_rearrange_inv (pv_rearrange (fun i j => ((4 * i + j : ℕ) : ℝ)) 2 2) 2 2 3 2 =
      (fun i j => ((4 * i + j : ℕ) : ℝ)) 3 2 :=
  C1_pv_rearrange_round_trip (fun i j => ((4 * i + j : ℕ) : ℝ)) 2 2
    (by decide) (by decide) 3 2 (by decide) (by decide)

/-- Column indices of the `off`-diagonal of the transposed index grid used by
`build_P`: the source forms `idx = np.arange(pt**2).reshape((pt, pt)).T + 1`
and takes `np.diagonal(idx, offset=off) - 1`.  Since `idx.T[k][l] = l*pt + k + 1`,
the diagonal at `off ≥ 0` visits `(k+off)*pt + k` for `k < pt - off`, and at
`off < 0` visits `k*pt + (k + |off|)` for `k < pt - |off|`. -/
def diag_cols (pt : ℕ) (off : ℤ) : List ℕ :=
  if 0 ≤ off then (List.range (pt - off.toNat)).map (fun k => (k + off.toNat) * pt + k)
  else (List.range (pt - (-off).toNat)).map (fun k => k * pt + (k + (-off).toNat))

/-- Embedding of `build_P(pt)` as an entry function on the `(2·pt−1) × pt²`
shape: `P[off + pt - 1, diag_idx - 1] = 1/np.sqrt(pt - np.abs(off))`, all other
entries remain at their `np.zeros` initialization. -/
noncomputable def build_P (pt : ℕ) : ℕ → ℕ → ℝ := fun r c =>
  if c ∈ diag_cols pt ((r : ℤ) - ((pt : ℤ) - 1)) then
    1 / Real.sqrt ((pt : ℝ) - (((r : ℤ) - ((pt : ℤ) - 1)).natAbs : ℝ))
  else 0

/-- A column index lies on the `off`-diagonal of the transposed grid iff it is
`q*pt + s` for grid coordinates `q, s < pt` with `q - s = off`. -/
lemma mem_diag_cols {pt : ℕ} {off : ℤ} {c : ℕ} :
    c ∈ diag_cols pt off ↔
      ∃ q s : ℕ, q < pt ∧ s < pt ∧ (q : ℤ) - (s : ℤ) = off ∧ c = q * pt + s := by
  unfold diag_cols
  by_cases hoff : 0 ≤ off
  · rw [if_pos hoff]
    simp only [List.mem_map, List.mem_range]
    constructor
    · rintro ⟨k, hk, rfl⟩
      exact ⟨k + off.toNat, k, by omega, by omega, by push_cast; omega, rfl⟩
    · rintro ⟨q, s, hq, hs, hqs, rfl⟩
      refine ⟨s, by omega, ?_⟩
      have hq' : q = s + off.toNat := by omega
      rw [hq']
    -- the images agree after rewriting q
  · rw [if_neg hoff]
    simp only [List.mem_map, List.mem_range]
    constructor
    · rintro ⟨k, hk, rfl⟩
      exact ⟨k, k + (-off).toNat, by omega, by omega, by push_cast; omega, rfl⟩
    · rintro ⟨q, s, hq, hs, hqs, rfl⟩
      refine ⟨q, by omega, ?_⟩
      have hs' : s = q + (-off).toNat := by omega
      rw [hs']

lemma mem_diag_cols_lt {pt : ℕ} {off : ℤ} {c : ℕ} (h : c ∈ diag_cols pt off) :
    c < pt * pt := by
  obtain ⟨q, s, hq, hs, _, rfl⟩ := mem_diag_cols.mp h
  exact lt_mul_of_parts hq hs

/-- Uniqueness of the `(q, s)` grid decomposition of a linear index. -/
lemma grid_decomp_unique {pt q s q' s' : ℕ} (hq : q < pt) (hs : s < pt)
    (hq' : q' < pt) (hs' : s' < pt) (h : q * pt + s = q' * pt + s') :
    q = q' ∧ s = s' := by
  have e1 : (pt * q + s) / pt = q := (nat_mul_add_div_mod hs).1
  have e2 : (pt * q + s) % pt = s := (nat_mul_add_div_mod hs).2
  have e3 : (pt * q' + s') / pt = q' := (nat_mul_add_div_mod hs').1
  have e4 : (pt * q' + s') % pt = s' := (nat_mul_add_div_mod hs').2
  have h' : pt * q + s = pt * q' + s' := by
    rw [mul_comm pt q, mul_comm pt q']; exact h
  constructor
  · rw [← e1, ← e3, h']
  · rw [← e2, ← e4, h']

/-- Distinct diagonals have disjoint column sets. -/
lemma diag_cols_disjoint {pt : ℕ} {off off' : ℤ} (h : off ≠ off') {c : ℕ}
    (h1 : c ∈ diag_cols pt off) (h2 : c ∈ diag_cols pt off') : False := by
  obtain ⟨q, s, hq, hs, hqs, hc⟩ := mem_diag_cols.mp h1
  obtain ⟨q', s', hq', hs', hqs', hc'⟩ := mem_diag_cols.mp h2
  obtain ⟨rfl, rfl⟩ := grid_decomp_unique hq hs hq' hs' (hc ▸ hc')
  exact h (hqs ▸ hqs')

lemma diag_cols_nodup {pt : ℕ} (off : ℤ) : (diag_cols pt off).Nodup := by
  unfold diag_cols
  by_cases hoff : 0 ≤ off
  · rw [if_pos hoff]
    refine (List.nodup_range _).map_on ?_
    intro x hx y hy hxy
    simp only [List.mem_range] at hx hy
    exact (grid_decomp_unique (by omega) (by omega) (by omega) (by omega) hxy).2
  · rw [if_neg hoff]
    refine (List.nodup_range _).map_on ?_
    intro x hx y hy hxy
    simp only [List.mem_range] at hx hy
    exact (grid_decomp_unique (by omega) (by omega) (by omega) (by omega) hxy).1

lemma diag_cols_length {pt : ℕ} (off : ℤ) :
    (diag_cols pt off).length = pt - off.natAbs := by
  unfold diag_cols
  by_cases hoff : 0 ≤ off
  · rw [if_pos hoff, List.length_map, List.length_range]
    omega
  · rw [if_neg hoff, List.length_map, List.length_range]
    omega

lemma build_P_not_mem {pt r c : ℕ}
    (h : c ∉ diag_cols pt ((r : ℤ) - ((pt : ℤ) - 1))) : build_P pt r c = 0 := by
  unfold build_P; rw [if_neg h]

lemma build_P_mem {pt r c : ℕ}
    (h : c ∈ diag_cols pt ((r : ℤ) - ((pt : ℤ) - 1))) :
    build_P pt r c =
      1 / Real.sqrt ((pt : ℝ) - ((((r : ℤ) - ((pt : ℤ) - 1)).natAbs : ℕ) : ℝ)) := by
  unfold build_P; rw [if_pos h]

lemma diag_weight_pos {pt : ℕ} {off : ℤ} (h : off.natAbs < pt) :
    (0 : ℝ) < (pt : ℝ) - ((off.natAbs : ℕ) : ℝ) := by
  have : ((off.natAbs : ℕ) : ℝ) < (pt : ℝ) := by exact_mod_cast h
  linarith

lemma diag_weight_ne_zero {pt : ℕ} {off : ℤ} (h : off.natAbs < pt) :
    1 / Real.sqrt ((pt : ℝ) - ((off.natAbs : ℕ) : ℝ)) ≠ 0 :=
  one_div_ne_zero (ne_of_gt (Real.sqrt_pos.mpr (diag_weight_pos h)))

lemma filter_mem_diag_card (pt : ℕ) (off : ℤ) :
    ((Finset.range (pt * pt)).filter (fun c => c ∈ diag_cols pt off)).card
      = pt - off.natAbs := by
  have he : (Finset.range (pt * pt)).filter (fun c => c ∈ diag_cols pt off)
      = (diag_cols pt off).toFinset := by
    ext c
    simp only [Finset.mem_filter, Finset.mem_range, List.mem_toFinset]
    exact ⟨fun h => h.2, fun h => ⟨mem_diag_cols_lt h, h⟩⟩
  rw [he, List.toFinset_card_of_nodup (diag_cols_nodup off), diag_cols_length]

/-- Each valid row of `build_P(pt)` has unit squared l2 norm. -/
lemma build_P_row_norm {pt r : ℕ} (hpt : 0 < pt) (hr : r < 2 * pt - 1) :
    ∑ c in Finset.range (pt * pt), (build_P pt r c)^2 = 1 := by
  have habs : ((r : ℤ) - ((pt : ℤ) - 1)).natAbs < pt := by omega
  have hsum : ∀ c ∈ Finset.range (pt * pt), (build_P pt r c)^2 =
      if c ∈ diag_cols pt ((r : ℤ) - ((pt : ℤ) - 1)) then
        (1 / Real.sqrt ((pt : ℝ) - ((((r : ℤ) - ((pt : ℤ) - 1)).natAbs : ℕ) : ℝ)))^2
      else 0 := by
    intro c _
    by_cases h : c ∈ diag_cols pt ((r : ℤ) - ((pt : ℤ) - 1))
    · rw [if_pos h, build_P_mem h]
    · rw [if_neg h, build_P_not_mem h, zero_pow two_ne_zero]
  rw [Finset.sum_congr rfl hsum, ← Finset.sum_filter, Finset.sum_const,
    filter_mem_diag_card, nsmul_eq_mul]
  have hpos := diag_weight_pos habs
  rw [div_pow, one_pow, Real.sq_sqrt hpos.le,
    show ((pt - ((r : ℤ) - ((pt : ℤ) - 1)).natAbs : ℕ) : ℝ) =
      (pt : ℝ) - ((((r : ℤ) - ((pt : ℤ) - 1)).natAbs : ℕ) : ℝ) from
      Nat.cast_sub habs.le]
  exact mul_one_div_cancel hpos.ne'

/-- C7: for every `pt ≥ 1` and valid row `r = off + pt − 1` of `build_P(pt)`
(`off` from `−(pt−1)` to `pt−1`), the nonzero entries sit exactly at the
linear indices `q*pt + s` (with `q, s < pt`, `q − s = off`) of the `off`-th
diagonal of the transposed `pt × pt` index grid; there are `pt − |off|` of
them; each equals `1/√(pt − |off|)`; and consequently the row has unit
squared l2 norm. -/
theorem C7_build_P_structure (pt r : ℕ) (hpt : 0 < pt) (hr : r < 2 * pt - 1) :
    (∀ c, c < pt * pt →
      (build_P pt r c ≠ 0 ↔
        ∃ q s : ℕ, q < pt ∧ s < pt ∧ (q : ℤ) - (s : ℤ) = (r : ℤ) - ((pt : ℤ) - 1) ∧
          c = q * pt + s)) ∧
    (∀ c, c ∈ diag_cols pt ((r : ℤ) - ((pt : ℤ) - 1)) →
      build_P pt r c =
        1 / Real.sqrt ((pt : ℝ) - ((((r : ℤ) - ((pt : ℤ) - 1)).natAbs : ℕ) : ℝ))) ∧
    ((diag_cols pt ((r : ℤ) - ((pt : ℤ) - 1))).length
        = pt - ((r : ℤ) - ((pt : ℤ) - 1)).natAbs) ∧
    ∑ c in Finset.range (pt * pt), (build_P pt r c)^2 = 1 := by
  have habs : ((r : ℤ) - ((pt : ℤ) - 1)).natAbs < pt := by omega
  refine ⟨?_, fun c hc => build_P_mem hc, diag_cols_length _, build_P_row_norm hpt hr⟩
  intro c _
  constructor
  · intro hne
    by_cases h : c ∈ diag_cols pt ((r : ℤ) - ((pt : ℤ) - 1))
    · exact mem_diag_cols.mp h
    · exact absurd (build_P_not_mem h) hne
  · intro hex
    rw [build_P_mem (mem_diag_cols.mpr hex)]
    exact diag_weight_ne_zero habs

/-- Witness for C7 at `pt = 2`, row `r = 1` (the main diagonal, offset 0). -/
theorem C7_witness :
    ((∀ c, c < 2 * 2 →
      (build_P 2 1 c ≠ 0 ↔
        ∃ q s : ℕ, q < 2 ∧ s < 2 ∧ (q : ℤ) - (s : ℤ) = (1 : ℤ) - ((2 : ℤ) - 1) ∧
          c = q * 2 + s)) ∧
    (∀ c, c ∈ diag_cols 2 ((1 : ℤ) - ((2 : ℤ) - 1)) →
      build_P 2 1 c =
        1 / Real.sqrt ((2 : ℝ) - (((((1 : ℕ) : ℤ) - (((2 : ℕ) : ℤ) - 1)).natAbs : ℕ) : ℝ))) ∧
    ((diag_cols 2 ((1 : ℤ) - ((2 : ℤ) - 1))).length
        = 2 - (((1 : ℤ) - ((2 : ℤ) - 1)).natAbs)) ∧
    ∑ c in Finset.range (2 * 2), (build_P 2 1 c)^2 = 1) :=
  C7_build_P_structure 2 1 (by decide) (by decide)

/-- C10: the rows of `build_P(pt)` have pairwise disjoint supports — every
column of the `pt²` columns carries exactly one nonzero entry among the valid
rows — so together with the unit row norms, `P · Pᵀ` is the
`(2·pt−1)`-dimensional identity. -/
theorem C10_build_P_orthonormal (pt : ℕ) (hpt : 0 < pt) :
    (∀ c, c < pt * pt → ∃! r, r < 2 * pt - 1 ∧ build_P pt r c ≠ 0) ∧
    (∀ r, r < 2 * pt - 1 → ∀ r', r' < 2 * pt - 1 →
      ∑ c in Finset.range (pt * pt), build_P pt r c * build_P pt r' c =
        if r = r' then 1 else 0) := by
  constructor
  · intro c hc
    have hq0 : c / pt < pt := by rw [Nat.div_lt_iff_lt_mul hpt]; exact hc
    have hs0 : c % pt < pt := Nat.mod_lt _ hpt
    have hdec0 : c = c / pt * pt + c % pt := by
      rw [mul_comm (c / pt) pt]; exact (Nat.div_add_mod c pt).symm
    obtain ⟨q, s, hq, hs, hdecomp⟩ :
        ∃ q s : ℕ, q < pt ∧ s < pt ∧ c = q * pt + s :=
      ⟨c / pt, c % pt, hq0, hs0, hdec0⟩
    clear hq0 hs0 hdec0
    refine ⟨((q : ℤ) - (s : ℤ) + ((pt : ℤ) - 1)).toNat, ⟨?_, ?_⟩, ?_⟩
    · omega
    · have hmem : c ∈ diag_cols pt
          (((((q : ℤ) - (s : ℤ) + ((pt : ℤ) - 1)).toNat : ℕ) : ℤ) - ((pt : ℤ) - 1)) := by
        apply mem_diag_cols.mpr
        exact ⟨q, s, hq, hs, by omega, hdecomp⟩
      rw [build_P_mem hmem]
      exact diag_weight_ne_zero (by omega)
    · rintro r' ⟨hr', hne⟩
      by_cases h : c ∈ diag_cols pt ((r' : ℤ) - ((pt : ℤ) - 1))
      · obtain ⟨q', s', hq', hs', hqs', hc'⟩ := mem_diag_cols.mp h
        have heq : q' * pt + s' = q * pt + s := by rw [← hc', ← hdecomp]
        obtain ⟨e1, e2⟩ := grid_decomp_unique hq' hs' hq hs heq
        subst e1; subst e2
        omega
      · exact absurd (build_P_not_mem h) hne
  · intro r hr r' hr'
    by_cases hrr : r = r'
    · subst hrr
      rw [if_pos rfl, show (∑ c in Finset.range (pt * pt),
          build_P pt r c * build_P pt r c) =
          ∑ c in Finset.range (pt * pt), (build_P pt r c)^2 from
          Finset.sum_congr rfl (fun c _ => (pow_two (build_P pt r c)).symm)]
      exact build_P_row_norm hpt hr
    · rw [if_neg hrr]
      apply Finset.sum_eq_zero
      intro c _
      by_cases h : c ∈ diag_cols pt ((r : ℤ) - ((pt : ℤ) - 1))
      · have h' : c ∉ diag_cols pt ((r' : ℤ) - ((pt : ℤ) - 1)) := by
          intro hmem
          exact diag_cols_disjoint (by omega : ((r : ℤ) - ((pt : ℤ) - 1)) ≠
            ((r' : ℤ) - ((pt : ℤ) - 1))) h hmem
        rw [build_P_not_mem h', mul_zero]
      · rw [build_P_not_mem h, zero_mul]

/-- Witness for C10 at `pt = 2`. -/
theorem C10_witness :
    ((∀ c, c < 2 * 2 → ∃! r, r < 2 * 2 - 1 ∧ build_P 2 r c ≠ 0) ∧
    (∀ r, r < 2 * 2 - 1 → ∀ r', r' < 2 * 2 - 1 →
      ∑ c in Finset.range (2 * 2), build_P 2 r c * build_P 2 r' c =
        if r = r' then 1 else 0)) :=
  C10_build_P_orthonormal 2 (by decide)

/-- Scalar soft-threshold: `np.sign(x) * np.maximum(np.abs(x) - lam, 0)`. -/
noncomputable def soft_thresh_val (x lam : ℝ) : ℝ := Real.sign x * max (|x| - lam) 0

/-- Embedding of `soft_entrywise_threshold(M, lambda_param)`:
`np.sign(M)*np.maximum(np.abs(M) - lambda_param, 0)` applied entrywise. -/
noncomputable def soft_entrywise_threshold (M : ℕ → ℕ → ℝ) (lam : ℝ) : ℕ → ℕ → ℝ :=
  fun i j => soft_thresh_val (M i j) lam

/-- Step-size argument of the unconstrained solver: the source branches on
`isinstance(tau, np.ndarray)`, accepting either a scalar or a schedule. -/
inductive TauArg where
  | scalar (t : ℝ)
  | sched (ts : ℕ → ℝ)

/-- Embedding of `tau_vals`: `np.ones(num_iter)*tau` for a scalar (a constant
schedule), the supplied array itself otherwise. -/
noncomputable def tau_vals : TauArg → ℕ → ℝ
  | TauArg.scalar t => fun _ => t
  | TauArg.sched ts => ts

/-- Body of the `for k in range(num_iter)` loop of `prox_grad_robust_kron_pca`
acting on the reassigned state `(M_prev, S_prev, L_prev)`.  The singular-value
soft-threshold `soft_sv_threshold` factors through an SVD, which has no
executable shallow embedding, so it enters as the oracle parameter `svT`. -/
noncomputable def prox_step (svT : (ℕ → ℕ → ℝ) → ℝ → (ℕ → ℕ → ℝ)) (R : ℕ → ℕ → ℝ)
    (lambda_L lambda_S t : ℝ)
    (st : (ℕ → ℕ → ℝ) × (ℕ → ℕ → ℝ) × (ℕ → ℕ → ℝ)) :
    (ℕ → ℕ → ℝ) × (ℕ → ℕ → ℝ) × (ℕ → ℕ → ℝ) :=
  let L := svT (st.1 - st.2.1) (t * lambda_L)
  let S := soft_entrywise_threshold (st.1 - st.2.2) (t * lambda_S)
  let M := L + S - t • (L + S - R)
  (M, S, L)

/-- Embedding of `prox_grad_robust_kron_pca(sample_cov, ps, pt, lambda_L,
lambda_S, num_iter, tau)`: rearrange, initialize `L_prev = R`, `S_prev = 0`,
`M_prev = L_prev + S_prev`, fold the loop body over `range(num_iter)`, and
return `pv_rearrange_inv(L + S)` for the last loop-local `L`, `S` (which for
`num_iter ≥ 1` are the `L_prev`, `S_prev` components of the final state). -/
noncomputable def prox_grad_robust_kron_pca (svT : (ℕ → ℕ → ℝ) → ℝ → (ℕ → ℕ → ℝ))
    (sample_cov : ℕ → ℕ → ℝ) (ps pt : ℕ) (lambda_L lambda_S : ℝ)
    (num_iter : ℕ) (tau : TauArg) : ℕ → ℕ → ℝ :=
  let R := pv_rearrange sample_cov ps pt
  let final := (List.range num_iter).foldl
    (fun st k => prox_step svT R lambda_L lambda_S (tau_vals tau k) st)
    (R + 0, 0, R)
  pv_rearrange_inv (final.2.2 + final.2.1) ps pt

/-- The iterate families of the specification, written as stated there:
`(L_k, S_k, M_k)` with `L_0 = R`, `S_0 = 0`, `M_0 = L_0 + S_0` and the three
coupled update equations. -/
noncomputable def spec_iterates (svT : (ℕ → ℕ → ℝ) → ℝ → (ℕ → ℕ → ℝ))
    (R : ℕ → ℕ → ℝ) (lambda_L lambda_S : ℝ) (tv : ℕ → ℝ) :
    ℕ → (ℕ → ℕ → ℝ) × (ℕ → ℕ → ℝ) × (ℕ → ℕ → ℝ)
  | 0 => (R, 0, R + 0)
  | k + 1 =>
    let p := spec_iterates svT R lambda_L lambda_S tv k
    let L := svT (p.2.2 - p.2.1) (tv k * lambda_L)
    let S := soft_entrywise_threshold (p.2.2 - p.1) (tv k * lambda_S)
    let M := L + S - tv k • (L + S - R)
    (L, S, M)

noncomputable def specL (svT : (ℕ → ℕ → ℝ) → ℝ → (ℕ → ℕ → ℝ)) (R : ℕ → ℕ → ℝ)
    (lambda_L lambda_S : ℝ) (tv : ℕ → ℝ) (k : ℕ) : ℕ → ℕ → ℝ :=
  (spec_iterates svT R lambda_L lambda_S tv k).1

noncomputable def specS (svT : (ℕ → ℕ → ℝ) → ℝ → (ℕ → ℕ → ℝ)) (R : ℕ → ℕ → ℝ)
    (lambda_L lambda_S : ℝ) (tv : ℕ → ℝ) (k : ℕ) : ℕ → ℕ → ℝ :=
  (spec_iterates svT R lambda_L lambda_S tv k).2.1

noncomputable def specM (svT : (ℕ → ℕ → ℝ) → ℝ → (ℕ → ℕ → ℝ)) (R : ℕ → ℕ → ℝ)
    (lambda_L lambda_S : ℝ) (tv : ℕ → ℝ) (k : ℕ) : ℕ → ℕ → ℝ :=
  (spec_iterates svT R lambda_L lambda_S tv k).2.2

/-- The source fold visits exactly the spec iterates, in the state layout
`(M_prev, S_prev, L_prev)`. -/
lemma prox_fold_eq_spec (svT : (ℕ → ℕ → ℝ) → ℝ → (ℕ → ℕ → ℝ)) (R : ℕ → ℕ → ℝ)
    (lambda_L lambda_S : ℝ) (tv : ℕ → ℝ) (n : ℕ) :
    (List.range n).foldl (fun st k => prox_step svT R lambda_L lambda_S (tv k) st)
      (R + 0, 0, R) =
    (specM svT R lambda_L lambda_S tv n, specS svT R lambda_L lambda_S tv n,
      specL svT R lambda_L lambda_S tv n) := by
  induction n with
  | zero => rfl
  | succ n ih =>
    rw [List.range_succ, List.foldl_append, ih, List.foldl_cons, List.foldl_nil]
    rfl

/-- C4: the unconstrained solver initializes `L_0 = R` (the rearranged
covariance), `S_0 = 0`, `M_0 = L_0 + S_0`; its iterates satisfy, for every
`k`, the claimed update equations with step `τ_k = tau_vals[k]` (scalar steps
becoming a constant schedule); and after exactly `num_iter ≥ 1` iterations,
with no convergence check, it returns the inverse-rearranged sum `L + S` of
the final iterates. -/
theorem C4_prox_grad_unconstrained (svT : (ℕ → ℕ → ℝ) → ℝ → (ℕ → ℕ → ℝ))
    (sample_cov : ℕ → ℕ → ℝ) (ps pt : ℕ) (lambda_L lambda_S : ℝ)
    (num_iter : ℕ) (tau : TauArg) (hnum : 1 ≤ num_iter) :
    (specL svT (pv_rearrange sample_cov ps pt) lambda_L lambda_S (tau_vals tau) 0 =
        pv_rearrange sample_cov ps pt ∧
      specS svT (pv_rearrange sample_cov ps pt) lambda_L lambda_S (tau_vals tau) 0 = 0 ∧
      specM svT (pv_rearrange sample_cov ps pt) lambda_L lambda_S (tau_vals tau) 0 =
        specL svT (pv_rearrange sample_cov ps pt) lambda_L lambda_S (tau_vals tau) 0 +
        specS svT (pv_rearrange sample_cov ps pt) lambda_L lambda_S (tau_vals tau) 0) ∧
    (∀ k,
      specL svT (pv_rearrange sample_cov ps pt) lambda_L lambda_S (tau_vals tau) (k + 1) =
        svT (specM svT (pv_rearrange sample_cov ps pt) lambda_L lambda_S (tau_vals tau) k -
             specS svT (pv_rearrange sample_cov ps pt) lambda_L lambda_S (tau_vals tau) k)
          (tau_vals tau k * lambda_L) ∧
      specS svT (pv_rearrange sample_cov ps pt) lambda_L lambda_S (tau_vals tau) (k + 1) =
        soft_entrywise_threshold
          (specM svT (pv_rearrange sample_cov ps pt) lambda_L lambda_S (tau_vals tau) k -
           specL svT (pv_rearrange sample_cov ps pt) lambda_L lambda_S (tau_vals tau) k)
          (tau_vals tau k * lambda_S) ∧
      specM svT (pv_rearrange sample_cov ps pt) lambda_L lambda_S (tau_vals tau) (k + 1) =
        specL svT (pv_rearrange sample_cov ps pt) lambda_L lambda_S (tau_vals tau) (k + 1) +
        specS svT (pv_rearrange sample_cov ps pt) lambda_L lambda_S (tau_vals tau) (k + 1) -
        tau_vals tau k •
          (specL svT (pv_rearrange sample_cov ps pt) lambda_L lambda_S (tau_vals tau) (k + 1) +
           specS svT (pv_rearrange sample_cov ps pt) lambda_L lambda_S (tau_vals tau) (k + 1) -
           pv_rearrange sample_cov ps pt)) ∧
    prox_grad_robust_kron_pca svT sample_cov ps pt lambda_L lambda_S num_iter tau =
      pv_rearrange_inv
        (specL svT (pv_rearrange sample_cov ps pt) lambda_L lambda_S (tau_vals tau) num_iter +
         specS svT (pv_rearrange sample_cov ps pt) lambda_L lambda_S (tau_vals tau) num_iter)
        ps pt := by
  refine ⟨⟨rfl, rfl, rfl⟩, fun k => ⟨rfl, rfl, rfl⟩, ?_⟩
  have e : prox_grad_robust_kron_pca svT sample_cov ps pt lambda_L lambda_S num_iter tau =
      pv_rearrange_inv
        (((List.range num_iter).foldl
            (fun st k => prox_step svT (pv_rearrange sample_cov ps pt) lambda_L lambda_S
              (tau_vals tau k) st)
            (pv_rearrange sample_cov ps pt + 0, 0, pv_rearrange sample_cov ps pt)).2.2 +
         ((List.range num_iter).foldl
            (fun st k => prox_step svT (pv_rearrange sample_cov ps pt) lambda_L lambda_S
              (tau_vals tau k) st)
            (pv_rearrange sample_cov ps pt + 0, 0, pv_rearrange sample_cov ps pt)).2.1)
        ps pt := rfl
  rw [e, prox_fold_eq_spec]

/-- Witness for C4 with the identity oracle, a zero covariance, `ps = pt = 1`,
zero regularization, one iteration and unit scalar step: the solver output
equals the inverse-rearranged sum of the first spec iterates. -/
theorem C4_witness :
    prox_grad_robust_kron_pca (fun M _ => M) (fun _ _ => (0 : ℝ)) 1 1 0 0 1
        (TauArg.scalar 1) =
      pv_rearrange_inv
        (specL (fun M _ => M) (pv_rearrange (fun _ _ => (0 : ℝ)) 1 1) 0 0
            (tau_vals (TauArg.scalar 1)) 1 +
         specS (fun M _ => M) (pv_rearrange (fun _ _ => (0 : ℝ)) 1 1) 0 0
            (tau_vals (TauArg.scalar 1)) 1) 1 1 :=
  (C4_prox_grad_unconstrained (fun M _ => M) (fun _ _ => (0 : ℝ)) 1 1 0 0 1
    (TauArg.scalar 1) (by decide)).2.2

open scoped Classical

/-- Matrix product with the inner index summed over `range m`. -/
noncomputable def matmul (A B : ℕ → ℕ → ℝ) (m : ℕ) : ℕ → ℕ → ℝ :=
  fun i j => ∑ k in Finset.range m, A i k * B k j

/-- Per-row weight `cj = 1/np.sqrt(pt - np.abs(j))` of the constrained sparse
update, for the diagonal-offset row `r = j + pt - 1`. -/
noncomputable def toep_row_weight (pt r : ℕ) : ℝ :=
  1 / Real.sqrt ((pt : ℝ) - ((((r : ℤ) - ((pt : ℤ) - 1)).natAbs : ℕ) : ℝ))

/-- Embedding of the sparsity diagnostic
`np.sum(np.nonzero(S_tilde))/S_tilde.size`: `np.nonzero` returns the pair of
arrays of row indices and column indices of the structurally nonzero entries,
and `np.sum` of that pair adds up all of those indices. -/
noncomputable def sparsity_diag (nrows ncols : ℕ) (S : ℕ → ℕ → ℝ) : ℝ :=
  (∑ r in Finset.range nrows, ∑ c in Finset.range ncols,
    if S r c ≠ 0 then ((r : ℝ) + (c : ℝ)) else 0) / ((nrows : ℝ) * (ncols : ℝ))

/-- Modelled from the spec: the sparsity fraction the specification describes,
the number of structurally nonzero entries of `S̃` divided by its total
number of entries. -/
noncomputable def claimed_sparsity (nrows ncols : ℕ) (S : ℕ → ℕ → ℝ) : ℝ :=
  ((((Finset.range nrows) ×ˢ (Finset.range ncols)).filter
      (fun p => S p.1 p.2 ≠ 0)).card : ℝ) / ((nrows : ℝ) * (ncols : ℝ))

/-- Embedding of `np.linalg.matrix_rank(np.dot(P.T, L_tilde))`, idealized as
the exact rank of the `(pt², ps²)` product matrix. -/
noncomputable def toep_rank (ps pt : ℕ) (L : ℕ → ℕ → ℝ) : ℕ :=
  (Matrix.of (fun (i : Fin (pt * pt)) (j : Fin (ps * ps)) =>
    matmul (fun a b => build_P pt b a) L (2 * pt - 1) (i : ℕ) (j : ℕ))).rank

/-- Embedding of `np.sqrt(np.mean((A - B)**2))` over a `d × d` shape. -/
noncomputable def rms_diff (d : ℕ) (A B : ℕ → ℕ → ℝ) : ℝ :=
  Real.sqrt ((∑ i in Finset.range d, ∑ j in Finset.range d, (A i j - B i j)^2) /
    ((d : ℝ) * (d : ℝ)))

/-- One iteration body of the Toeplitz-constrained solver on the state
`(M_tilde_prev, S_tilde_prev, L_tilde_prev)`: the low-rank update via the
`svT` oracle, the row-by-row weighted entrywise threshold of `S_tilde`
(the `for j in range(-pt+1, pt)` loop rewrites every row before `S_tilde` is
read again, so it is a pure per-row map), and the combined gradient step. -/
noncomputable def toep_step (svT : (ℕ → ℕ → ℝ) → ℝ → (ℕ → ℕ → ℝ)) (pt : ℕ)
    (Rt : ℕ → ℕ → ℝ) (lambda_L lambda_S tau : ℝ)
    (st : (ℕ → ℕ → ℝ) × (ℕ → ℕ → ℝ) × (ℕ → ℕ → ℝ)) :
    (ℕ → ℕ → ℝ) × (ℕ → ℕ → ℝ) × (ℕ → ℕ → ℝ) :=
  let L := svT (st.1 - st.2.1) (tau * lambda_L)
  let S : ℕ → ℕ → ℝ := fun r c =>
    soft_thresh_val (st.1 r c - st.2.2 r c) (tau * lambda_S * toep_row_weight pt r)
  let M := L + S - tau • (L + S - Rt)
  (M, S, L)

/-- The `for k in range(max_iter)` loop of the constrained solver with its
every-`stop_cond_interval` convergence check: at a check iteration the full
covariance estimate `pv_rearrange_inv(P.T @ (L_tilde + S_tilde))` is formed,
compared (for `k > 0`) against the estimate of the previous check by RMS
difference, and the loop breaks when that difference falls below `tol`.
Returns the loop-local `(L_tilde, S_tilde)` of the last executed iteration
and the `cov_est` assigned at the most recent check. -/
noncomputable def toep_loop (svT : (ℕ → ℕ → ℝ) → ℝ → (ℕ → ℕ → ℝ)) (ps pt : ℕ)
    (Rt : ℕ → ℕ → ℝ) (lambda_L lambda_S tau tol : ℝ) (interval : ℕ) :
    ℕ → ℕ → ((ℕ → ℕ → ℝ) × (ℕ → ℕ → ℝ) × (ℕ → ℕ → ℝ)) →
    Option (ℕ → ℕ → ℝ) → Option (ℕ → ℕ → ℝ) →
    (ℕ → ℕ → ℝ) × (ℕ → ℕ → ℝ) × Option (ℕ → ℕ → ℝ)
  | 0, _, st, _, covEst => (st.2.2, st.2.1, covEst)
  | fuel + 1, k, st, covPrev, covEst =>
    let st' := toep_step svT pt Rt lambda_L lambda_S tau st
    if k % interval = 0 then
      let ce := pv_rearrange_inv
        (matmul (fun i j => build_P pt j i) (st'.2.2 + st'.2.1) (2 * pt - 1)) ps pt
      if 0 < k ∧ rms_diff (ps * pt) ce (covPrev.getD 0) < tol then
        (st'.2.2, st'.2.1, some ce)
      else
        toep_loop svT ps pt Rt lambda_L lambda_S tau tol interval fuel (k + 1) st'
          (some ce) (some ce)
    else
      toep_loop svT ps pt Rt lambda_L lambda_S tau tol interval fuel (k + 1) st'
        covPrev covEst

/-- Final loop state of `prox_grad_robust_toeplitz_kron_pca`: the last
`L_tilde`, the last `S_tilde`, and the last assigned `cov_est`; the loop
starts from `L_tilde_prev = R_tilde = P @ R`, `S_tilde_prev = 0`,
`M_tilde_prev = L_tilde_prev + S_tilde_prev`. -/
noncomputable def toep_final (svT : (ℕ → ℕ → ℝ) → ℝ → (ℕ → ℕ → ℝ))
    (sample_cov : ℕ → ℕ → ℝ) (ps pt : ℕ) (lambda_L lambda_S tau tol : ℝ)
    (max_iter interval : ℕ) :
    (ℕ → ℕ → ℝ) × (ℕ → ℕ → ℝ) × Option (ℕ → ℕ → ℝ) :=
  let Rt := matmul (build_P pt) (pv_rearrange sample_cov ps pt) (pt * pt)
  toep_loop svT ps pt Rt lambda_L lambda_S tau tol interval max_iter 0
    (Rt + 0, 0, Rt) none none

/-- Embedding of `prox_grad_robust_toeplitz_kron_pca(...)`: returns the
covariance estimate from the last convergence check, the matrix rank of
`P.T @ L_tilde`, and the sparsity diagnostic of `S_tilde`. -/
noncomputable def prox_grad_robust_toeplitz_kron_pca
    (svT : (ℕ → ℕ → ℝ) → ℝ → (ℕ → ℕ → ℝ)) (sample_cov : ℕ → ℕ → ℝ) (ps pt : ℕ)
    (lambda_L lambda_S tau tol : ℝ) (max_iter interval : ℕ) :
    (ℕ → ℕ → ℝ) × ℕ × ℝ :=
  let fin := toep_final svT sample_cov ps pt lambda_L lambda_S tau tol max_iter interval
  (fin.2.2.getD 0, toep_rank ps pt fin.1, sparsity_diag (2 * pt - 1) (ps * ps) fin.2.1)

/-- Python or numpy error outcomes observable at the entry points. -/
inductive PyErr where
  | valueError
  | indexError
  | zeroDivisionError
  | nameError
deriving DecidableEq

/-- The gather `C.ravel()[perm].reshape((pt**2, ps**2))` performed on an input
of actual side length `n`: `C.ravel()` of an `n × n` array places entry
`(m / n, m % n)` at flat index `m`, so the gathered value at rearranged
position `(r, c)` is the entry of `C` at width-`n` decode of
`perm[r*ps² + c]`.  For the matched width `n = ps·pt` this is exactly
`pv_rearrange` (see `pv_rearrange_n_matched`); for `n > ps·pt` it is what
numpy silently returns. -/
def pv_rearrange_n {α : Type} (C : ℕ → ℕ → α) (n ps pt : ℕ) : ℕ → ℕ → α :=
  fun r c =>
    let m := pv_perm ps pt (r * (ps * ps) + c)
    C (m / n) (m % n)

lemma pv_rearrange_n_matched {α : Type} (C : ℕ → ℕ → α) (ps pt : ℕ) :
    pv_rearrange_n C (ps * pt) ps pt = pv_rearrange C ps pt := rfl

/-- numpy bounds semantics of the fancy indexing `C.ravel()[perm]` inside
`pv_rearrange`: the flat array of the `n × n` input has `n²` entries, and the
gather raises IndexError iff some index in `perm` falls outside them;
otherwise it returns the width-`n` gather `pv_rearrange_n`.  The source
performs no shape validation of its own. -/
def pv_rearrange_run (n : ℕ) (C : ℕ → ℕ → ℝ) (ps pt : ℕ) :
    Except PyErr (ℕ → ℕ → ℝ) :=
  if (List.range (ps ^ 2 * pt ^ 2)).all (fun m => decide (pv_perm ps pt m < n * n)) then
    Except.ok (pv_rearrange_n C n ps pt)
  else Except.error PyErr.indexError

/-- `build_P(pt)` begins with `np.zeros((2*pt - 1, pt**2))`; for `pt = 0` the
first dimension is `-1` and numpy raises ValueError.  For `pt ≥ 1` nothing in
`build_P` can fail. -/
noncomputable def build_P_run (pt : ℕ) : Except PyErr (ℕ → ℕ → ℝ) :=
  if pt = 0 then Except.error PyErr.valueError else Except.ok (build_P pt)

/-- Entry-point behavior of the constrained solver including Python's
incidental failure modes, in source order: `build_P(pt)` (ValueError for
`pt = 0`), `pv_rearrange` (IndexError when the permutation indexes out of the
`n²` entries), and — only after the whole loop body was skipped — the read of
the never-bound `L_tilde` when `max_iter = 0` (NameError).  The source
contains no eager validation of any argument. -/
noncomputable def toeplitz_kron_pca_run (svT : (ℕ → ℕ → ℝ) → ℝ → (ℕ → ℕ → ℝ))
    (sample_cov : ℕ → ℕ → ℝ) (n ps pt : ℕ) (lambda_L lambda_S tau tol : ℝ)
    (max_iter interval : ℕ) : Except PyErr ((ℕ → ℕ → ℝ) × ℕ × ℝ) := do
  let _P ← build_P_run pt
  let _R ← pv_rearrange_run n sample_cov ps pt
  if max_iter = 0 then Except.error PyErr.nameError
  else Except.ok (prox_grad_robust_toeplitz_kron_pca svT sample_cov ps pt
    lambda_L lambda_S tau tol max_iter interval)

/-- When the input side length is at least `ps·pt`, every permutation index
is in bounds and the numpy gather succeeds. -/
lemma pv_perm_all_check {ps pt n : ℕ} (h : ps * pt ≤ n) :
    (List.range (ps ^ 2 * pt ^ 2)).all
      (fun m => decide (pv_perm ps pt m < n * n)) = true := by
  rw [List.all_eq_true]
  intro m hm
  rw [List.mem_range] at hm
  rw [decide_eq_true_eq]
  have hm' : m < ps * ps * (pt * pt) := by
    calc m < ps ^ 2 * pt ^ 2 := hm
    _ = ps * ps * (pt * pt) := by ring
  calc pv_perm ps pt m < ps * ps * (pt * pt) := pv_perm_lt hm'
  _ = (ps * pt) * (ps * pt) := by ring
  _ ≤ n * n := Nat.mul_le_mul h h

/-- When the input side length is smaller than `ps·pt`, some permutation index
is out of bounds and the numpy gather raises IndexError. -/
lemma pv_perm_check_fails {ps pt n : ℕ} (hps : 0 < ps) (hpt : 0 < pt)
    (h : n < ps * pt) :
    (List.range (ps ^ 2 * pt ^ 2)).all
      (fun m => decide (pv_perm ps pt m < n * n)) = false := by
  have hN : 0 < ps * ps * (pt * pt) := by positivity
  have htop : ps * ps * (pt * pt) - 1 < ps * ps * (pt * pt) := by omega
  rw [List.all_eq_false]
  refine ⟨pv_perm_pre ps pt (ps * ps * (pt * pt) - 1), ?_, ?_⟩
  · rw [List.mem_range]
    calc pv_perm_pre ps pt (ps * ps * (pt * pt) - 1) < ps * ps * (pt * pt) :=
      pv_perm_pre_lt htop
    _ = ps ^ 2 * pt ^ 2 := by ring
  · rw [pv_perm_perm_pre htop]
    simp only [decide_eq_true_eq, not_lt]
    have e : (ps * pt) * (ps * pt) = ps * ps * (pt * pt) := by ring
    have hlt : n * n < (ps * pt) * (ps * pt) := Nat.mul_lt_mul_of_lt_of_lt h h
    omega

/-- C9 (amended): the rearrangement applies no shape validation of its own.
An input matrix of side `n < ps·pt` fails with an IndexError raised by the
out-of-range fancy indexing — not by a dimension check — while an input of
side `n > ps·pt` is processed without any error: the gather silently returns
the `ps²·pt²` entries of the flat width-`n` ravel of the input addressed by
the permutation (`pv_rearrange_n`).  Both regimes are the single equation
below. -/
theorem C9_shape_mismatch_behavior (n ps pt : ℕ) (C : ℕ → ℕ → ℝ)
    (hps : 0 < ps) (hpt : 0 < pt) :
    pv_rearrange_run n C ps pt =
      if ps * pt ≤ n then Except.ok (pv_rearrange_n C n ps pt)
      else Except.error PyErr.indexError := by
  by_cases h : ps * pt ≤ n
  · rw [if_pos h]
    unfold pv_rearrange_run
    rw [pv_perm_all_check h]
    rfl
  · rw [if_neg h]
    unfold pv_rearrange_run
    rw [pv_perm_check_fails hps hpt (by omega)]
    rfl

/-- Counterexample to C9 as stated: with `ps = 1`, `pt = 2` a `3 × 3` input
(side `3 ≠ 1·2`) does not fail fast with a dimension error — the call
succeeds, and the rearranged rows silently hold the flat entries
`C[0,0], C[0,1], C[0,2], C[1,0]` of the oversized input (the permutation is
the identity for `ps = 1`, read through the width-3 ravel): rearranged
position `(2,0)` holds `C[0,2]` and `(3,0)` holds `C[1,0]`. -/
theorem C9_counterexample :
    (3 : ℕ) ≠ 1 * 2 ∧
    pv_rearrange_run 3 (fun i j => ((3 * i + j : ℕ) : ℝ)) 1 2 =
      Except.ok (pv_rearrange_n (fun i j => ((3 * i + j : ℕ) : ℝ)) 3 1 2) ∧
    pv_rearrange_n (fun i j => ((3 * i + j : ℕ) : ℝ)) 3 1 2 2 0 =
      (fun i j => ((3 * i + j : ℕ) : ℝ)) 0 2 ∧
    pv_rearrange_n (fun i j => ((3 * i + j : ℕ) : ℝ)) 3 1 2 3 0 =
      (fun i j => ((3 * i + j : ℕ) : ℝ)) 1 0 := by
  refine ⟨by decide, rfl, rfl, rfl⟩

/-- Witness for C9 at `ps = 1`, `pt = 2`, `n = 3`. -/
theorem C9_witness :
    pv_rearrange_run 3 (fun _ _ => (1 : ℝ)) 1 2 =
      if 1 * 2 ≤ 3 then Except.ok (pv_rearrange_n (fun _ _ => (1 : ℝ)) 3 1 2)
      else Except.error PyErr.indexError :=
  C9_shape_mismatch_behavior 3 1 2 (fun _ _ => (1 : ℝ)) (by decide) (by decide)

/-- C8 (amended): no eager validation exists at the solver entry point.  In
particular an iteration cap below the convergence-check interval is not
rejected: whenever `pt ≥ 1`, the input side matches `ps·pt` and
`1 ≤ max_iter < stop_cond_interval`, the call runs to completion and returns
its normal result.  (Non-positive `pt` or a zero iteration count fail only
incidentally — with a numpy ValueError in `build_P` or a NameError after the
loop — never through an eager check.) -/
theorem C8_no_eager_validation (svT : (ℕ → ℕ → ℝ) → ℝ → (ℕ → ℕ → ℝ))
    (sample_cov : ℕ → ℕ → ℝ) (ps pt : ℕ) (lambda_L lambda_S tau tol : ℝ)
    (max_iter interval : ℕ) (hps : 0 < ps) (hpt : 0 < pt)
    (hiter : 0 < max_iter) (hlt : max_iter < interval) :
    toeplitz_kron_pca_run svT sample_cov (ps * pt) ps pt lambda_L lambda_S tau tol
        max_iter interval =
      Except.ok (prox_grad_robust_toeplitz_kron_pca svT sample_cov ps pt
        lambda_L lambda_S tau tol max_iter interval) := by
  have h1 : build_P_run pt = Except.ok (build_P pt) := by
    unfold build_P_run
    rw [if_neg (by omega : ¬ pt = 0)]
  have h2 : pv_rearrange_run (ps * pt) sample_cov ps pt =
      Except.ok (pv_rearrange_n sample_cov (ps * pt) ps pt) := by
    unfold pv_rearrange_run
    rw [pv_perm_all_check (le_refl (ps * pt))]
    rfl
  unfold toeplitz_kron_pca_run
  rw [h1, h2]
  show (if max_iter = 0 then Except.error PyErr.nameError
    else Except.ok (prox_grad_robust_toeplitz_kron_pca svT sample_cov ps pt
      lambda_L lambda_S tau tol max_iter interval)) = _
  rw [if_neg (by omega : ¬ max_iter = 0)]

/-- Counterexample to C8 as stated: a call with iteration cap `1` strictly
below the convergence-check interval `20` (an invalid configuration according
to the claim) does not fail at all — it returns a normal result. -/
theorem C8_counterexample :
    (1 : ℕ) < 20 ∧
    (toeplitz_kron_pca_run (fun M _ => M) (fun _ _ => (1 : ℝ)) 1 1 1 5 (1/10)
      (1/10) (1/10^8) 1 20).isOk = true := by
  refine ⟨by decide, ?_⟩
  have h := C8_no_eager_validation (fun M _ => M) (fun _ _ => (1 : ℝ)) 1 1 5 (1/10)
    (1/10) (1/10^8) 1 20 (by decide) (by decide) (by decide) (by decide)
  rw [show (1 : ℕ) * 1 = 1 from rfl] at h
  rw [h]
  rfl

/-- Witness for C8 at `ps = pt = 1`, `max_iter = 1`, `interval = 20`. -/
theorem C8_witness :
    toeplitz_kron_pca_run (fun M _ => M) (fun _ _ => (1 : ℝ)) (1 * 1) 1 1 5 (1/10)
        (1/10) (1/10^8) 1 20 =
      Except.ok (prox_grad_robust_toeplitz_kron_pca (fun M _ => M)
        (fun _ _ => (1 : ℝ)) 1 1 5 (1/10) (1/10) (1/10^8) 1 20) :=
  C8_no_eager_validation (fun M _ => M) (fun _ _ => (1 : ℝ)) 1 1 5 (1/10) (1/10)
    (1/10^8) 1 20 (by decide) (by decide) (by decide) (by decide)

/-- Row indices of the Python slice `X[a:b]` of an array with `n` rows:
the clipped half-open range `[a, min(b, n))`. -/
def np_slice (a b n : ℕ) : List ℕ := List.range' a (min b n - a)

/-- Test rows of fold `i`:
`X_test = X_with_lags[cv_iter*fold_size : (cv_iter+1)*fold_size]` with
`fold_size = int(np.floor(len(X)/num_folds))`. -/
def cv_test_idx (n K i : ℕ) : List ℕ :=
  np_slice (i * (n / K)) ((i + 1) * (n / K)) n

/-- Training rows of fold `i`:
`X_train = np.concatenate((X_with_lags[:cv_iter*fold_size],
X_with_lags[(cv_iter+1)*fold_size:]), axis=0)` — note the second slice runs to
the end of the array. -/
def cv_train_idx (n K i : ℕ) : List ℕ :=
  np_slice 0 (i * (n / K)) n ++
    List.range' ((i + 1) * (n / K)) (n - (i + 1) * (n / K))

/-- Column mean of `X` over a list of rows. -/
noncomputable def list_col_mean (X : ℕ → ℕ → ℝ) (rows : List ℕ) (a : ℕ) : ℝ :=
  ((rows.map (fun r => X r a)).sum) / (rows.length : ℝ)

/-- Mean-centered sample covariance over a list of rows:
`np.dot(X_ctd.T, X_ctd)/len(X)` with `X_ctd = X - X.mean(axis=0)`. -/
noncomputable def centered_cov_list (X : ℕ → ℕ → ℝ) (rows : List ℕ) : ℕ → ℕ → ℝ :=
  fun a b =>
    ((rows.map (fun r =>
      (X r a - list_col_mean X rows a) * (X r b - list_col_mean X rows b))).sum) /
      (rows.length : ℝ)

/-- Raw (uncentered) second-moment matrix over a list of rows:
`np.dot(X.T, X)/len(X)`. -/
noncomputable def raw_cov_list (X : ℕ → ℕ → ℝ) (rows : List ℕ) : ℕ → ℕ → ℝ :=
  fun a b => ((rows.map (fun r => X r a * X r b)).sum) / (rows.length : ℝ)

/-- Train covariance formed by the CV driver for fold `i`. -/
noncomputable def cov_train (X : ℕ → ℕ → ℝ) (n K i : ℕ) : ℕ → ℕ → ℝ :=
  centered_cov_list X (cv_train_idx n K i)

/-- Test covariance formed by the CV driver for fold `i` (not centered). -/
noncomputable def cov_test (X : ℕ → ℕ → ℝ) (n K i : ℕ) : ℕ → ℕ → ℝ :=
  raw_cov_list X (cv_test_idx n K i)

/-- Modelled from the spec: the test block of fold `i` described there, the
rows of the full table lying in `[i·⌊n/K⌋, (i+1)·⌊n/K⌋)`. -/
def spec_test_rows (n K i : ℕ) : List ℕ :=
  (List.range n).filter (fun r => decide (i * (n / K) ≤ r ∧ r < (i + 1) * (n / K)))

/-- Modelled from the spec (as amended): the training rows of fold `i`, the
complement of the test block within all `n` rows. -/
def spec_train_rows (n K i : ℕ) : List ℕ :=
  (List.range n).filter (fun r => decide (¬(i * (n / K) ≤ r ∧ r < (i + 1) * (n / K))))

lemma list_col_mean_perm (X : ℕ → ℕ → ℝ) {l1 l2 : List ℕ} (h : l1.Perm l2) (a : ℕ) :
    list_col_mean X l1 a = list_col_mean X l2 a := by
  unfold list_col_mean
  rw [(h.map (fun r => X r a)).sum_eq, h.length_eq]

lemma centered_cov_list_perm (X : ℕ → ℕ → ℝ) {l1 l2 : List ℕ} (h : l1.Perm l2) :
    centered_cov_list X l1 = centered_cov_list X l2 := by
  funext a b
  unfold centered_cov_list
  rw [list_col_mean_perm X h a, list_col_mean_perm X h b,
    (h.map _).sum_eq, h.length_eq]

lemma raw_cov_list_perm (X : ℕ → ℕ → ℝ) {l1 l2 : List ℕ} (h : l1.Perm l2) :
    raw_cov_list X l1 = raw_cov_list X l2 := by
  funext a b
  unfold raw_cov_list
  rw [(h.map _).sum_eq, h.length_eq]

lemma cv_fold_bound {n K i : ℕ} (hi : i < K) : (i + 1) * (n / K) ≤ n := by
  calc (i + 1) * (n / K) ≤ K * (n / K) := Nat.mul_le_mul_right (n / K) hi
  _ = n / K * K := mul_comm K (n / K)
  _ ≤ n := Nat.div_mul_le_self n K

lemma mem_cv_train_idx {n K i r : ℕ} (hi : i < K) :
    r ∈ cv_train_idx n K i ↔
      r < n ∧ ¬(i * (n / K) ≤ r ∧ r < (i + 1) * (n / K)) := by
  have hb : (i + 1) * (n / K) ≤ n := cv_fold_bound hi
  have he : (i + 1) * (n / K) = i * (n / K) + n / K := by ring
  unfold cv_train_idx np_slice
  rw [List.mem_append, List.mem_range'_1, List.mem_range'_1, he]
  rw [he] at hb
  revert hb
  generalize i * (n / K) = p
  generalize n / K = fs
  intro hb
  rw [min_eq_left (by omega : p ≤ n)]
  omega

lemma mem_spec_train_rows {n K i r : ℕ} :
    r ∈ spec_train_rows n K i ↔
      r < n ∧ ¬(i * (n / K) ≤ r ∧ r < (i + 1) * (n / K)) := by
  unfold spec_train_rows
  rw [List.mem_filter, List.mem_range, decide_eq_true_eq]

lemma mem_spec_test_rows {n K i r : ℕ} :
    r ∈ spec_test_rows n K i ↔
      r < n ∧ i * (n / K) ≤ r ∧ r < (i + 1) * (n / K) := by
  unfold spec_test_rows
  rw [List.mem_filter, List.mem_range, decide_eq_true_eq]

lemma cv_train_idx_nodup (n K i : ℕ) : (cv_train_idx n K i).Nodup := by
  unfold cv_train_idx np_slice
  refine List.Nodup.append (List.nodup_range' _ _) (List.nodup_range' _ _) ?_
  intro x hx1 hx2
  rw [List.mem_range'_1] at hx1 hx2
  rw [show (i + 1) * (n / K) = i * (n / K) + n / K from by ring] at hx2
  revert hx1 hx2
  generalize i * (n / K) = p
  generalize n / K = fs
  intro hx1 hx2
  have hmin : min p n ≤ p := min_le_left _ _
  omega

lemma cv_train_idx_perm {n K i : ℕ} (hi : i < K) :
    (cv_train_idx n K i).Perm (spec_train_rows n K i) := by
  apply (List.perm_ext_iff_of_nodup (cv_train_idx_nodup n K i)
    (by unfold spec_train_rows; exact (List.nodup_range n).filter _)).mpr
  intro r
  rw [mem_cv_train_idx hi, mem_spec_train_rows]

lemma cv_test_idx_eq_block {n K i : ℕ} (hi : i < K) :
    cv_test_idx n K i = List.range' (i * (n / K)) (n / K) := by
  have hb : (i + 1) * (n / K) ≤ n := cv_fold_bound hi
  have he : (i + 1) * (n / K) = i * (n / K) + n / K := by ring
  unfold cv_test_idx np_slice
  rw [he]
  rw [he] at hb
  revert hb
  generalize i * (n / K) = p
  generalize n / K = fs
  intro hb
  rw [min_eq_left hb]
  congr 1
  omega

lemma cv_test_idx_perm {n K i : ℕ} (hi : i < K) :
    (cv_test_idx n K i).Perm (spec_test_rows n K i) := by
  apply (List.perm_ext_iff_of_nodup
    (by rw [cv_test_idx_eq_block hi]; exact List.nodup_range' _ _)
    (by unfold spec_test_rows; exact (List.nodup_range n).filter _)).mpr
  intro r
  rw [cv_test_idx_eq_block hi, List.mem_range'_1, mem_spec_test_rows]
  have hb : (i + 1) * (n / K) ≤ n := cv_fold_bound hi
  have he : (i + 1) * (n / K) = i * (n / K) + n / K := by ring
  rw [he]
  rw [he] at hb
  revert hb
  generalize i * (n / K) = p
  generalize n / K = fs
  intro hb
  omega

/-- C5 (amended): for every fold `i < K` (with `K ≥ 1`), the test rows are the
contiguous block `[i·⌊n/K⌋, (i+1)·⌊n/K⌋)`; the training rows are exactly the
complement of that block within all `n` rows — so the remainder rows beyond
`K·⌊n/K⌋` belong to every fold's training set and to no test set; the train
covariance is the mean-centered covariance of those training rows divided by
the training count; and the test covariance is the raw uncentered second
moment of the test rows divided by the test count. -/
theorem C5_cv_fold_structure (X : ℕ → ℕ → ℝ) (n K i : ℕ) (hK : 1 ≤ K) (hi : i < K) :
    cv_test_idx n K i = List.range' (i * (n / K)) (n / K) ∧
    (∀ r, r ∈ cv_train_idx n K i ↔
      r < n ∧ ¬(i * (n / K) ≤ r ∧ r < (i + 1) * (n / K))) ∧
    cov_train X n K i = centered_cov_list X (spec_train_rows n K i) ∧
    cov_test X n K i = raw_cov_list X (spec_test_rows n K i) :=
  ⟨cv_test_idx_eq_block hi, fun r => mem_cv_train_idx hi,
    centered_cov_list_perm X (cv_train_idx_perm hi),
    raw_cov_list_perm X (cv_test_idx_perm hi)⟩

/-- Counterexample to C5 as stated: with `n = 3` rows and `K = 2` folds,
`fold_size = 1`, row `2` is a remainder row (index at least
`K·fold_size = 2`), yet it belongs to the training rows of fold 0 — remainder
rows are not dropped from training. -/
theorem C5_counterexample :
    (2 * (3 / 2) ≤ 2 ∧ 2 < 3) ∧ 2 ∈ cv_train_idx 3 2 0 := by decide

/-- Witness for C5 at `n = 3`, `K = 2`, fold `i = 0`, zero data. -/
theorem C5_witness :
    cv_test_idx 3 2 0 = List.range' (0 * (3 / 2)) (3 / 2) ∧
    (∀ r, r ∈ cv_train_idx 3 2 0 ↔
      r < 3 ∧ ¬(0 * (3 / 2) ≤ r ∧ r < (0 + 1) * (3 / 2))) ∧
    cov_train (fun _ _ => (0 : ℝ)) 3 2 0 =
      centered_cov_list (fun _ _ => (0 : ℝ)) (spec_train_rows 3 2 0) ∧
    cov_test (fun _ _ => (0 : ℝ)) 3 2 0 =
      raw_cov_list (fun _ _ => (0 : ℝ)) (spec_test_rows 3 2 0) :=
  C5_cv_fold_structure (fun _ _ => (0 : ℝ)) 3 2 0 (by decide) (by decide)

/-- Embedding of `np.sum(np.abs(M))` over a `d × d` shape. -/
noncomputable def abs_sum (d : ℕ) (M : ℕ → ℕ → ℝ) : ℝ :=
  ∑ a in Finset.range d, ∑ b in Finset.range d, |M a b|

/-- Held-out Gaussian log-likelihood of fold `i`:
`-0.5*num_samples*(d*np.log(2*np.pi) + log_det_cov_reg_train +
np.trace(np.dot(cov_reg_train_inv, cov_test)))`, where `num_samples` is the
test-row count, the log-determinant is `np.linalg.slogdet`'s log of the
absolute determinant, and the matrix inversion `np.linalg.inv` enters through
the oracle `inv` (it can raise on singular input, which the shallow embedding
keeps abstract). -/
noncomputable def cv_log_likelihood (inv : (ℕ → ℕ → ℝ) → (ℕ → ℕ → ℝ))
    (X : ℕ → ℕ → ℝ) (n d K i : ℕ) (fit : ℕ → ℕ → ℝ) : ℝ :=
  let num_samples := (cv_test_idx n K i).length
  let log_det := Real.log (abs ((Matrix.of (fun (a : Fin d) (b : Fin d) => fit a b)).det))
  let tr := (∑ a in Finset.range d, ∑ b in Finset.range d,
    inv fit a b * cov_test X n K i b a);
  -(1 / 2) * (num_samples : ℝ) * ((d : ℝ) * Real.log (2 * Real.pi) + log_det + tr)

/-- Per-fold record of `cross_validate_toeplitz_fit` (log-likelihood, rank,
sparsity), with the solver abstracted as an oracle: when the fitted
covariance is degenerate (`np.sum(np.abs(cov_reg_train)) < 1e-12`) the driver
`continue`s with the sentinel `(-np.inf, 0, 0)`, never touching the
inversion; otherwise it records the Gaussian log-likelihood and the solver's
rank and sparsity diagnostics. -/
noncomputable def cv_fold_record (inv : (ℕ → ℕ → ℝ) → (ℕ → ℕ → ℝ))
    (solver : (ℕ → ℕ → ℝ) → (ℕ → ℕ → ℝ) × ℕ × ℝ) (X : ℕ → ℕ → ℝ)
    (n d K i : ℕ) : EReal × ℝ × ℝ :=
  let res := solver (cov_train X n K i)
  if abs_sum d res.1 < 1 / 10 ^ 12 then ((⊥ : EReal), 0, 0)
  else (((cv_log_likelihood inv X n d K i res.1 : ℝ) : EReal),
    ((res.2.1 : ℕ) : ℝ), res.2.2)

/-- Embedding of `cross_validate_toeplitz_fit`: the per-fold result tables,
one record per fold index. -/
noncomputable def cross_validate_toeplitz_fit (inv : (ℕ → ℕ → ℝ) → (ℕ → ℕ → ℝ))
    (solver : (ℕ → ℕ → ℝ) → (ℕ → ℕ → ℝ) × ℕ × ℝ) (X : ℕ → ℕ → ℝ)
    (n d K : ℕ) : List (EReal × ℝ × ℝ) :=
  (List.range K).map (fun i => cv_fold_record inv solver X n d K i)

/-- C6: for every fold whose fitted covariance has absolute-entry sum below
the fixed `1e-12`, the CV driver records log-likelihood `−∞`, rank `0` and
sparsity `0`, and skips the matrix inversion — the recorded value does not
depend on the inversion oracle at all, so no singular-matrix failure can be
raised. -/
theorem C6_degenerate_fold_sentinel (inv₁ inv₂ : (ℕ → ℕ → ℝ) → (ℕ → ℕ → ℝ))
    (solver : (ℕ → ℕ → ℝ) → (ℕ → ℕ → ℝ) × ℕ × ℝ) (X : ℕ → ℕ → ℝ)
    (n d K i : ℕ) (hi : i < K)
    (hdeg : abs_sum d (solver (cov_train X n K i)).1 < 1 / 10 ^ 12) :
    (cross_validate_toeplitz_fit inv₁ solver X n d K).getD i ((⊥ : EReal), 0, 0) =
      ((⊥ : EReal), (0 : ℝ), (0 : ℝ)) ∧
    cv_fold_record inv₁ solver X n d K i = cv_fold_record inv₂ solver X n d K i := by
  have hrec : ∀ inv, cv_fold_record inv solver X n d K i = ((⊥ : EReal), 0, 0) := by
    intro inv
    unfold cv_fold_record
    rw [if_pos hdeg]
  constructor
  · have hlen : i < (cross_validate_toeplitz_fit inv₁ solver X n d K).length := by
      unfold cross_validate_toeplitz_fit
      rw [List.length_map, List.length_range]
      exact hi
    rw [List.getD_eq_getElem _ _ hlen]
    unfold cross_validate_toeplitz_fit
    rw [List.getElem_map, List.getElem_range]
    exact hrec inv₁
  · rw [hrec inv₁, hrec inv₂]

/-- Witness for C6: the zero solver on zero data, one fold. -/
theorem C6_witness :
    ((cross_validate_toeplitz_fit (fun M => M)
        (fun _ => ((fun _ _ => (0 : ℝ)), 0, 0)) (fun _ _ => (0 : ℝ)) 1 1 1).getD 0
        ((⊥ : EReal), 0, 0) = ((⊥ : EReal), (0 : ℝ), (0 : ℝ))) ∧
    cv_fold_record (fun M => M) (fun _ => ((fun _ _ => (0 : ℝ)), 0, 0))
        (fun _ _ => (0 : ℝ)) 1 1 1 0 =
      cv_fold_record (fun _ => (fun _ _ => (42 : ℝ)))
        (fun _ => ((fun _ _ => (0 : ℝ)), 0, 0)) (fun _ _ => (0 : ℝ)) 1 1 1 0 :=
  C6_degenerate_fold_sentinel (fun M => M) (fun _ => (fun _ _ => (42 : ℝ)))
    (fun _ => ((fun _ _ => (0 : ℝ)), 0, 0)) (fun _ _ => (0 : ℝ)) 1 1 1 0
    (by decide)
    (by
      unfold abs_sum
      simp only [Finset.range_one, Finset.sum_singleton, abs_zero]
      norm_num)

/-- First-maximum semantics of `np.argmax` on a flattened array: an element is
selected iff no strictly larger element occurs after it. -/
noncomputable def np_argmax : List ℝ → ℕ
  | [] => 0
  | x :: xs => if ∃ y ∈ xs, x < y then np_argmax xs + 1 else 0

/-- Embedding of `np.mean` of a one-dimensional array. -/
noncomputable def mean_list (l : List ℝ) : ℝ := l.sum / (l.length : ℝ)

/-- The double grid loop of `regularize_cov` reassigns the loop variables
`lambda_L, lambda_S` on every cell; after the loops they hold the values of
the last grid pair visited (row-major order). -/
noncomputable def reg_cov_loop_lambdas (lambda_L_vals lambda_S_vals : List ℝ)
    (init : ℝ × ℝ) : ℝ × ℝ :=
  (List.range lambda_L_vals.length).foldl (fun acc iL =>
    (List.range lambda_S_vals.length).foldl
      (fun _ iS => (lambda_L_vals.getD iL 0, lambda_S_vals.getD iS 0)) acc) init

/-- The pair `lambda_L_opt, lambda_S_opt` computed by `regularize_cov`:
`np.unravel_index(mean_ll_vals.argmax(), mean_ll_vals.shape)` over the
row-major flattened fold-averaged log-likelihood table, then grid lookup.
The CV scoring enters as the oracle `cv`, mapping a hyperparameter pair to
its per-fold log-likelihood list. -/
noncomputable def reg_cov_selected (cv : ℝ → ℝ → List ℝ)
    (lambda_L_vals lambda_S_vals : List ℝ) : ℝ × ℝ :=
  let mean : ℕ → ℕ → ℝ := fun iL iS =>
    mean_list (cv (lambda_L_vals.getD iL 0) (lambda_S_vals.getD iS 0))
  let flat := (List.range (lambda_L_vals.length * lambda_S_vals.length)).map
    (fun m => mean (m / lambda_S_vals.length) (m % lambda_S_vals.length))
  let mi := np_argmax flat
  (lambda_L_vals.getD (mi / lambda_S_vals.length) 0,
    lambda_S_vals.getD (mi % lambda_S_vals.length) 0)

/-- Embedding of the tail of `regularize_cov`: after the grid loops the final
refit passes the loop variables `lambda_L, lambda_S` — the last grid pair —
to the Toeplitz-constrained solver; the computed `lambda_L_opt,
lambda_S_opt` are never used.  The solver enters as an oracle of the pair
actually passed, so the returned estimate records which pair the refit used. -/
noncomputable def regularize_cov_final (solver : ℝ → ℝ → (ℕ → ℕ → ℝ))
    (lambda_L_vals lambda_S_vals : List ℝ) : ℕ → ℕ → ℝ :=
  let lam := reg_cov_loop_lambdas lambda_L_vals lambda_S_vals (0, 0)
  solver lam.1 lam.2

/-- C2 is a code bug, demonstrated at the failing grids
`lambda_L_vals = [0, 1]`, `lambda_S_vals = [0]` with CV scores giving
mean log-likelihood `5` at cell `(0,0)` and `1` at cell `(1,0)`: the selected
pair (`lambda_L_opt, lambda_S_opt`, line 382 of the source) is `(0, 0)`, but
the refit (line 385) is performed with the stale loop pair `(1, 0)` — for
every solver. -/
theorem C2_refit_ignores_selected_pair :
    reg_cov_selected (fun lL _ => [5 - 4 * lL]) [0, 1] [0] = (0, 0) ∧
    (∀ solver : ℝ → ℝ → (ℕ → ℕ → ℝ),
      regularize_cov_final solver [0, 1] [0] = solver 1 0) ∧
    ((0 : ℝ), (0 : ℝ)) ≠ ((1 : ℝ), (0 : ℝ)) := by
  refine ⟨?_, fun solver => rfl, fun h => zero_ne_one (congrArg Prod.fst h)⟩
  have hmax : np_argmax [5, 1] = 0 := by
    unfold np_argmax
    rw [if_neg]
    push_neg
    intro y hy
    simp only [List.mem_singleton] at hy
    subst hy
    norm_num
  have e0 : reg_cov_selected (fun lL _ => [5 - 4 * lL]) [0, 1] [0] =
      ([(0 : ℝ), 1].getD
          (np_argmax [mean_list [5 - 4 * 0], mean_list [5 - 4 * 1]] / 1) 0,
        [(0 : ℝ)].getD
          (np_argmax [mean_list [5 - 4 * 0], mean_list [5 - 4 * 1]] % 1) 0) := rfl
  have h1 : mean_list [5 - 4 * 0] = (5 : ℝ) := by unfold mean_list; norm_num
  have h2 : mean_list [5 - 4 * 1] = (1 : ℝ) := by unfold mean_list; norm_num
  rw [e0, h1, h2, hmax]
  rfl

/-- Oracle instance of `soft_sv_threshold` valid for 1×1 matrices: the SVD of
`[[x]]` has the single singular value `|x|` with unit factors `u, v`
satisfying `u·|x|·v = x`, so the reconstruction after soft-thresholding the
singular value is `sign(x)·max(|x| − λ, 0)` regardless of the sign choices
in the factorization — entrywise soft-thresholding. -/
noncomputable def sv_thresh_1x1 : (ℕ → ℕ → ℝ) → ℝ → (ℕ → ℕ → ℝ) :=
  fun M lam => fun i j => soft_thresh_val (M i j) lam

lemma soft_thresh_val_of_pos {x lam : ℝ} (hx : 0 < x) (hlam : 0 ≤ x - lam) :
    soft_thresh_val x lam = x - lam := by
  unfold soft_thresh_val
  rw [Real.sign_of_pos hx, abs_of_pos hx, one_mul, max_eq_left hlam]

lemma soft_thresh_val_zero (lam : ℝ) : soft_thresh_val 0 lam = 0 := by
  unfold soft_thresh_val
  rw [Real.sign_zero, zero_mul]

lemma toep_step_S (svT : (ℕ → ℕ → ℝ) → ℝ → (ℕ → ℕ → ℝ)) (pt : ℕ)
    (Rt : ℕ → ℕ → ℝ) (lL lS t : ℝ) (st : (ℕ → ℕ → ℝ) × (ℕ → ℕ → ℝ) × (ℕ → ℕ → ℝ)) :
    (toep_step svT pt Rt lL lS t st).2.1 =
      fun r c => soft_thresh_val (st.1 r c - st.2.2 r c)
        (t * lS * toep_row_weight pt r) := rfl

lemma toep_step_L (svT : (ℕ → ℕ → ℝ) → ℝ → (ℕ → ℕ → ℝ)) (pt : ℕ)
    (Rt : ℕ → ℕ → ℝ) (lL lS t : ℝ) (st : (ℕ → ℕ → ℝ) × (ℕ → ℕ → ℝ) × (ℕ → ℕ → ℝ)) :
    (toep_step svT pt Rt lL lS t st).2.2 = svT (st.1 - st.2.1) (t * lL) := rfl

lemma toep_step_M (svT : (ℕ → ℕ → ℝ) → ℝ → (ℕ → ℕ → ℝ)) (pt : ℕ)
    (Rt : ℕ → ℕ → ℝ) (lL lS t : ℝ) (st : (ℕ → ℕ → ℝ) × (ℕ → ℕ → ℝ) × (ℕ → ℕ → ℝ)) :
    (toep_step svT pt Rt lL lS t st).1 =
      (toep_step svT pt Rt lL lS t st).2.2 + (toep_step svT pt Rt lL lS t st).2.1 -
        t • ((toep_step svT pt Rt lL lS t st).2.2 +
          (toep_step svT pt Rt lL lS t st).2.1 - Rt) := rfl

/-- A first loop iteration at `k = 0` always runs its convergence check but
can never break (`k > 0` fails), assigning `cov_est` and `cov_est_prev`. -/
lemma toep_loop_first (svT : (ℕ → ℕ → ℝ) → ℝ → (ℕ → ℕ → ℝ)) (ps pt : ℕ)
    (Rt : ℕ → ℕ → ℝ) (lL lS t tol : ℝ) (interval fuel : ℕ)
    (st : (ℕ → ℕ → ℝ) × (ℕ → ℕ → ℝ) × (ℕ → ℕ → ℝ))
    (covPrev covEst : Option (ℕ → ℕ → ℝ)) :
    toep_loop svT ps pt Rt lL lS t tol interval (fuel + 1) 0 st covPrev covEst =
      toep_loop svT ps pt Rt lL lS t tol interval fuel 1
        (toep_step svT pt Rt lL lS t st)
        (some (pv_rearrange_inv (matmul (fun i j => build_P pt j i)
          ((toep_step svT pt Rt lL lS t st).2.2 +
            (toep_step svT pt Rt lL lS t st).2.1) (2 * pt - 1)) ps pt))
        (some (pv_rearrange_inv (matmul (fun i j => build_P pt j i)
          ((toep_step svT pt Rt lL lS t st).2.2 +
            (toep_step svT pt Rt lL lS t st).2.1) (2 * pt - 1)) ps pt)) := by
  simp only [toep_loop, Nat.zero_mod, if_true, lt_self_iff_false, false_and, if_false]

/-- A non-check iteration (`k % interval ≠ 0`) just advances the state. -/
lemma toep_loop_nocheck (svT : (ℕ → ℕ → ℝ) → ℝ → (ℕ → ℕ → ℝ)) (ps pt : ℕ)
    (Rt : ℕ → ℕ → ℝ) (lL lS t tol : ℝ) (interval fuel k : ℕ)
    (hk : ¬ k % interval = 0)
    (st : (ℕ → ℕ → ℝ) × (ℕ → ℕ → ℝ) × (ℕ → ℕ → ℝ))
    (covPrev covEst : Option (ℕ → ℕ → ℝ)) :
    toep_loop svT ps pt Rt lL lS t tol interval (fuel + 1) k st covPrev covEst =
      toep_loop svT ps pt Rt lL lS t tol interval fuel (k + 1)
        (toep_step svT pt Rt lL lS t st) covPrev covEst := by
  simp only [toep_loop]
  rw [if_neg hk]

lemma toep_loop_exhausted (svT : (ℕ → ℕ → ℝ) → ℝ → (ℕ → ℕ → ℝ)) (ps pt : ℕ)
    (Rt : ℕ → ℕ → ℝ) (lL lS t tol : ℝ) (interval k : ℕ)
    (st : (ℕ → ℕ → ℝ) × (ℕ → ℕ → ℝ) × (ℕ → ℕ → ℝ))
    (covPrev covEst : Option (ℕ → ℕ → ℝ)) :
    toep_loop svT ps pt Rt lL lS t tol interval 0 k st covPrev covEst =
      (st.2.2, st.2.1, covEst) := rfl

lemma build_P_one_entry : build_P 1 0 0 = 1 := by
  have hmem : (0 : ℕ) ∈ diag_cols 1 (((0 : ℕ) : ℤ) - ((1 : ℤ) - 1)) := by
    apply mem_diag_cols.mpr
    exact ⟨0, 0, by decide, by decide, by decide, by decide⟩
  rw [build_P_mem hmem]
  norm_num [Real.sqrt_one]

lemma toep_row_weight_one : toep_row_weight 1 0 = 1 := by
  unfold toep_row_weight
  norm_num [Real.sqrt_one]

lemma sparsity_diag_one_one (S : ℕ → ℕ → ℝ) : sparsity_diag 1 1 S = 0 := by
  unfold sparsity_diag
  rw [Finset.sum_range_one, Finset.sum_range_one]
  simp

lemma claimed_sparsity_one_one {S : ℕ → ℕ → ℝ} (h : S 0 0 ≠ 0) :
    claimed_sparsity 1 1 S = 1 := by
  unfold claimed_sparsity
  rw [Finset.range_one, Finset.singleton_product_singleton, Finset.filter_singleton,
    if_pos h]
  simp

lemma sparsity_diag_three_ones : sparsity_diag 3 3 (fun _ _ => (1 : ℝ)) = 2 := by
  unfold sparsity_diag
  simp only [ne_eq, one_ne_zero, not_false_iff, if_true, Finset.sum_range_succ,
    Finset.sum_range_zero]
  norm_num

/-- Concrete two-iteration run of the constrained solver at `ps = pt = 1`,
`sample_cov = [[1]]`, `lambda_L = 5`, `lambda_S = 0.1`, `tau = 0.1`,
`max_iter = 2`, `stop_cond_interval = 20` (no break can fire): the final
sparse iterate is `S_tilde = [[1/25]]`. -/
lemma toep_final_S_entry :
    (toep_final sv_thresh_1x1 (fun _ _ => (1 : ℝ)) 1 1 5 (1 / 10) (1 / 10)
      (1 / 10 ^ 8) 2 20).2.1 0 0 = 1 / 25 := by
  set RT := matmul (build_P 1) (pv_rearrange (fun _ _ => (1 : ℝ)) 1 1) (1 * 1) with hRT
  have hRT00 : RT 0 0 = 1 := by
    rw [hRT]
    unfold matmul
    rw [show (1 : ℕ) * 1 = 1 from rfl, Finset.sum_range_one, build_P_one_entry,
      show pv_rearrange (fun _ _ => (1 : ℝ)) 1 1 0 0 = 1 from rfl]
    norm_num
  have hL1 : (toep_step sv_thresh_1x1 1 RT 5 (1 / 10) (1 / 10) (RT + 0, 0, RT)).2.2 0 0 =
      1 / 2 := by
    rw [toep_step_L]
    show soft_thresh_val (((RT + 0 : ℕ → ℕ → ℝ) - 0) 0 0) (1 / 10 * 5) = 1 / 2
    have harg : ((RT + 0 : ℕ → ℕ → ℝ) - 0) 0 0 = 1 := by
      simp [Pi.sub_apply, Pi.add_apply, hRT00]
    rw [harg, soft_thresh_val_of_pos (by norm_num) (by norm_num)]
    norm_num
  have hS1 : (toep_step sv_thresh_1x1 1 RT 5 (1 / 10) (1 / 10) (RT + 0, 0, RT)).2.1 0 0 =
      0 := by
    rw [toep_step_S]
    show soft_thresh_val ((RT + 0 : ℕ → ℕ → ℝ) 0 0 - RT 0 0)
      (1 / 10 * (1 / 10) * toep_row_weight 1 0) = 0
    have harg : (RT + 0 : ℕ → ℕ → ℝ) 0 0 - RT 0 0 = 0 := by
      simp [Pi.add_apply]
    rw [harg]
    exact soft_thresh_val_zero _
  have hM1 : (toep_step sv_thresh_1x1 1 RT 5 (1 / 10) (1 / 10) (RT + 0, 0, RT)).1 0 0 =
      11 / 20 := by
    rw [toep_step_M]
    simp only [Pi.sub_apply, Pi.add_apply, Pi.smul_apply, smul_eq_mul]
    rw [hL1, hS1, hRT00]
    norm_num
  have hfin : (toep_final sv_thresh_1x1 (fun _ _ => (1 : ℝ)) 1 1 5 (1 / 10) (1 / 10)
      (1 / 10 ^ 8) 2 20).2.1 =
      (toep_step sv_thresh_1x1 1 RT 5 (1 / 10) (1 / 10)
        (toep_step sv_thresh_1x1 1 RT 5 (1 / 10) (1 / 10) (RT + 0, 0, RT))).2.1 := by
    have e : toep_final sv_thresh_1x1 (fun _ _ => (1 : ℝ)) 1 1 5 (1 / 10) (1 / 10)
        (1 / 10 ^ 8) 2 20 =
        toep_loop sv_thresh_1x1 1 1 RT 5 (1 / 10) (1 / 10) (1 / 10 ^ 8) 20 (1 + 1) 0
          (RT + 0, 0, RT) none none := rfl
    rw [e, toep_loop_first, toep_loop_nocheck sv_thresh_1x1 1 1 RT 5 (1 / 10) (1 / 10)
      (1 / 10 ^ 8) 20 0 1 (by decide), toep_loop_exhausted]
  rw [hfin, toep_step_S]
  show soft_thresh_val
      ((toep_step sv_thresh_1x1 1 RT 5 (1 / 10) (1 / 10) (RT + 0, 0, RT)).1 0 0 -
        (toep_step sv_thresh_1x1 1 RT 5 (1 / 10) (1 / 10) (RT + 0, 0, RT)).2.2 0 0)
      (1 / 10 * (1 / 10) * toep_row_weight 1 0) = 1 / 25
  rw [hM1, hL1, toep_row_weight_one, soft_thresh_val_of_pos (by norm_num) (by norm_num)]
  norm_num

/-- C3 is a code bug: `np.sum(np.nonzero(S_tilde))` adds up the row and
column indices of the nonzero entries instead of counting them.  At the
concrete run of `toep_final_S_entry` the final `S_tilde = [[1/25]]` is
entirely nonzero, so the claimed fraction is `1`, yet the solver returns
sparsity `0` (the only nonzero entry has index sum `0`).  On a `3 × 3`
all-nonzero `S_tilde` the formula even returns `2`, outside `[0, 1]`. -/
theorem C3_sparsity_code_bug :
    (prox_grad_robust_toeplitz_kron_pca sv_thresh_1x1 (fun _ _ => (1 : ℝ)) 1 1 5
        (1 / 10) (1 / 10) (1 / 10 ^ 8) 2 20).2.2 = 0 ∧
    claimed_sparsity 1 1
      ((toep_final sv_thresh_1x1 (fun _ _ => (1 : ℝ)) 1 1 5 (1 / 10) (1 / 10)
        (1 / 10 ^ 8) 2 20).2.1) = 1 ∧
    sparsity_diag 3 3 (fun _ _ => (1 : ℝ)) = 2 := by
  refine ⟨?_, ?_, sparsity_diag_three_ones⟩
  · have e : (prox_grad_robust_toeplitz_kron_pca sv_thresh_1x1 (fun _ _ => (1 : ℝ)) 1 1 5
        (1 / 10) (1 / 10) (1 / 10 ^ 8) 2 20).2.2 =
        sparsity_diag 1 1 ((toep_final sv_thresh_1x1 (fun _ _ => (1 : ℝ)) 1 1 5 (1 / 10)
          (1 / 10) (1 / 10 ^ 8) 2 20).2.1) := rfl
    rw [e, sparsity_diag_one_one]
  · apply claimed_sparsity_one_one
    rw [toep_final_S_entry]
    norm_num
